import Mathlib

/-!
Verification of the constensor graph core: scheduler (topological ordering),
CPU interpreter, CUDA JIT grouping and kernel cache, GEMM dispatch, and the
GraphTensor front end.  Rust sources are shallowly embedded: pure functions
become Lean functions, stateful loops become explicit state passing, machine
scalars are modelled by exact arithmetic (Nat / Int / Rat) where the claims
do not depend on floating-point rounding.
-/

namespace Constensor

/-! ## Directed-graph model shared by the schedulers.

Both the standalone scheduler (backends/scheduler.rs) and the backends
(cpu_storage/mod.rs, cuda_backend/mod.rs) build a petgraph DiGraphMap whose
vertices are node indices and whose edges point from each operand to its
consumer, then call petgraph toposort.  The DiGraphMap is modelled by an
insertion-ordered vertex list plus an edge list; petgraph toposort is an
external crate whose documented contract is: return a topological order of
all vertices, or an error when the graph contains a cycle.  It is modelled
here by Kahn elimination of in-degree-zero vertices, which satisfies exactly
that contract (proved below) and is deterministic for a fixed input. -/

/-- Insert a vertex into the insertion-ordered vertex list unless present
(model of DiGraphMap add_node). -/
def addVertex (vs : List Nat) (v : Nat) : List Nat :=
  if v ∈ vs then vs else vs ++ [v]

/-- Adding an edge to a DiGraphMap also inserts both endpoints as vertices
(model of DiGraphMap add_edge for the vertex set). -/
def addEdgeVerts (vs : List Nat) (e : Nat × Nat) : List Nat :=
  addVertex (addVertex vs e.1) e.2

/-- A vertex has no incoming edge from the remaining vertex set. -/
def noIncoming (E : List (Nat × Nat)) (rem : List Nat) (v : Nat) : Bool :=
  ! rem.any (fun u => decide ((u, v) ∈ E))

/-- Pick the first remaining vertex with no incoming edge from the rest. -/
def pick (E : List (Nat × Nat)) (rem : List Nat) : Option Nat :=
  rem.find? (noIncoming E rem)

/-- Kahn elimination with explicit fuel; `fuel = rem.length` always suffices
because each step removes exactly one vertex. -/
def kahnFuel (E : List (Nat × Nat)) : Nat → List Nat → Option (List Nat)
  | _, [] => some []
  | 0, _ :: _ => none
  | fuel + 1, x :: xs =>
    match pick E (x :: xs) with
    | none => none
    | some v => (kahnFuel E fuel ((x :: xs).erase v)).map (fun l => v :: l)

/-- Model of petgraph toposort: repeatedly output a vertex with no incoming
edge among the not-yet-output vertices; fail when stuck on a nonempty rest. -/
def kahn (E : List (Nat × Nat)) (rem : List Nat) : Option (List Nat) :=
  kahnFuel E rem.length rem

/-- Nonempty paths through the edge list. -/
inductive Reach (E : List (Nat × Nat)) : Nat → Nat → Prop
  | single {u v : Nat} : (u, v) ∈ E → Reach E u v
  | cons {u w v : Nat} : (u, w) ∈ E → Reach E w v → Reach E u v

/-- A graph is acyclic when no vertex lies on a nonempty cycle. -/
def Acyclic (E : List (Nat × Nat)) : Prop := ∀ v, ¬ Reach E v v

theorem pick_mem {E : List (Nat × Nat)} {rem : List Nat} {v : Nat}
    (h : pick E rem = some v) : v ∈ rem :=
  List.mem_of_find?_eq_some h

theorem pick_noIncoming {E : List (Nat × Nat)} {rem : List Nat} {v : Nat}
    (h : pick E rem = some v) : ∀ u ∈ rem, (u, v) ∉ E := by
  have hp := List.find?_some h
  simp only [noIncoming, Bool.not_eq_eq_eq_not, Bool.not_true, List.any_eq_false,
    decide_eq_false_iff_not] at hp
  intro u hu
  simpa using hp u hu

theorem pick_none {E : List (Nat × Nat)} {rem : List Nat}
    (h : pick E rem = none) : ∀ v ∈ rem, ∃ u ∈ rem, (u, v) ∈ E := by
  intro v hv
  have hp := List.find?_eq_none.mp h v hv
  simp only [noIncoming, Bool.not_eq_true, Bool.not_eq_false, List.any_eq_true,
    decide_eq_true_eq] at hp
  simpa using hp

theorem kahnFuel_perm {E : List (Nat × Nat)} :
    ∀ (fuel : Nat) (rem ord : List Nat), rem.length ≤ fuel →
      kahnFuel E fuel rem = some ord → ord.Perm rem := by
  intro fuel
  induction fuel with
  | zero =>
    intro rem ord hle h
    match rem with
    | [] => simp only [kahnFuel, Option.some.injEq] at h; simp [← h]
    | x :: xs => simp at hle
  | succ n ih =>
    intro rem ord hle h
    match rem with
    | [] => simp only [kahnFuel, Option.some.injEq] at h; simp [← h]
    | x :: xs =>
      cases hp : pick E (x :: xs) with
      | none => simp only [kahnFuel, hp] at h; exact absurd h (by simp)
      | some v =>
        simp only [kahnFuel, hp] at h
        cases hk : kahnFuel E n ((x :: xs).erase v) with
        | none => rw [hk] at h; exact absurd h (by simp)
        | some l =>
          rw [hk] at h
          simp only [Option.map] at h
          injection h with h
          have hv : v ∈ x :: xs := pick_mem hp
          have hlen : ((x :: xs).erase v).length = (x :: xs).length - 1 :=
            List.length_erase_of_mem hv
          have hperm : l.Perm ((x :: xs).erase v) := by
            refine ih _ _ ?_ hk
            rw [hlen]
            simp only [List.length_cons] at hle ⊢
            omega
          have hco : (v :: l).Perm (v :: (x :: xs).erase v) := hperm.cons v
          rw [← h]
          exact hco.trans (List.perm_cons_erase hv).symm

theorem kahn_perm {E : List (Nat × Nat)} {rem ord : List Nat}
    (h : kahn E rem = some ord) : ord.Perm rem :=
  kahnFuel_perm rem.length rem ord le_rfl h

theorem kahnFuel_precedes {E : List (Nat × Nat)} :
    ∀ (fuel : Nat) (rem ord : List Nat), rem.length ≤ fuel →
      kahnFuel E fuel rem = some ord →
      ∀ u v : Nat, (u, v) ∈ E → u ∈ rem → v ∈ rem →
        ord.indexOf u < ord.indexOf v := by
  intro fuel
  induction fuel with
  | zero =>
    intro rem ord hle h u v he hu hv
    match rem with
    | [] => simp at hu
    | x :: xs => simp at hle
  | succ n ih =>
    intro rem ord hle h u v he hu hv
    match rem with
    | [] => simp at hu
    | x :: xs =>
      cases hp : pick E (x :: xs) with
      | none => simp only [kahnFuel, hp] at h; exact absurd h (by simp)
      | some w =>
        simp only [kahnFuel, hp] at h
        cases hk : kahnFuel E n ((x :: xs).erase w) with
        | none => rw [hk] at h; exact absurd h (by simp)
        | some l =>
          rw [hk] at h
          simp only [Option.map] at h
          injection h with h
          subst h
          have hw : w ∈ x :: xs := pick_mem hp
          have hvw : v ≠ w := by
            rintro rfl
            exact pick_noIncoming hp u hu he
          have hvl : v ∈ (x :: xs).erase w := (List.mem_erase_of_ne hvw).mpr hv
          have hlen : ((x :: xs).erase w).length ≤ n := by
            rw [List.length_erase_of_mem hw]
            simp only [List.length_cons] at hle ⊢
            omega
          by_cases huw : u = w
          · subst huw
            rw [List.indexOf_cons_self]
            rw [List.indexOf_cons_ne _ (fun hc => hvw hc.symm)]
            omega
          · have hul : u ∈ (x :: xs).erase w := (List.mem_erase_of_ne huw).mpr hu
            have := ih ((x :: xs).erase w) l hlen hk u v he hul hvl
            rw [List.indexOf_cons_ne _ (fun hc => huw hc.symm),
              List.indexOf_cons_ne _ (fun hc => hvw hc.symm)]
            omega

theorem kahn_precedes {E : List (Nat × Nat)} {rem ord : List Nat}
    (h : kahn E rem = some ord) {u v : Nat} (he : (u, v) ∈ E)
    (hu : u ∈ rem) (hv : v ∈ rem) : ord.indexOf u < ord.indexOf v :=
  kahnFuel_precedes rem.length rem ord le_rfl h u v he hu hv

/-- A finite nonempty vertex set in which every vertex has a predecessor
inside the set contains a vertex lying on a cycle. -/
theorem exists_cycle_of_blocked (E : List (Nat × Nat)) (rem : List Nat)
    (hne : rem ≠ []) (hblock : ∀ v ∈ rem, ∃ u ∈ rem, (u, v) ∈ E) :
    ∃ v ∈ rem, Reach E v v := by
  classical
  obtain ⟨x₀, hx₀⟩ : ∃ x, x ∈ rem := by
    cases rem with
    | nil => exact absurd rfl hne
    | cons a l => exact ⟨a, List.mem_cons_self a l⟩
  set g : Nat → Nat := fun v =>
    if h : ∃ u, u ∈ rem ∧ (u, v) ∈ E then h.choose else v with hg
  have hgmem : ∀ v ∈ rem, g v ∈ rem ∧ (g v, v) ∈ E := by
    intro v hv
    obtain ⟨u, hu, hue⟩ := hblock v hv
    have hex : ∃ u, u ∈ rem ∧ (u, v) ∈ E := ⟨u, hu, hue⟩
    simp only [hg, dif_pos hex]
    exact hex.choose_spec
  have hmem : ∀ k, g^[k] x₀ ∈ rem := by
    intro k
    induction k with
    | zero => simpa using hx₀
    | succ m ihm =>
      rw [Function.iterate_succ_apply']
      exact (hgmem _ ihm).1
  have hreach : ∀ i d, Reach E (g^[i + (d + 1)] x₀) (g^[i] x₀) := by
    intro i d
    induction d with
    | zero =>
      have : g^[i + 1] x₀ = g (g^[i] x₀) := Function.iterate_succ_apply' g i x₀
      rw [this]
      exact Reach.single (hgmem _ (hmem i)).2
    | succ m ihm =>
      have hstep : g^[i + (m + 1 + 1)] x₀ = g (g^[i + (m + 1)] x₀) := by
        rw [show i + (m + 1 + 1) = (i + (m + 1)) + 1 by omega]
        exact Function.iterate_succ_apply' g _ x₀
      rw [hstep]
      exact Reach.cons (hgmem _ (hmem (i + (m + 1)))).2 ihm
  have hmaps : ∀ k ∈ Finset.range (rem.length + 1),
      g^[k] x₀ ∈ rem.toFinset := by
    intro k _
    exact List.mem_toFinset.mpr (hmem k)
  have hcard : rem.toFinset.card < (Finset.range (rem.length + 1)).card := by
    have := rem.toFinset_card_le
    simp only [Finset.card_range]
    omega
  obtain ⟨i, hi, j, hj, hij, heq⟩ :=
    Finset.exists_ne_map_eq_of_card_lt_of_maps_to hcard hmaps
  rcases Nat.lt_or_ge i j with hlt | hge
  · have h1 := hreach i (j - i - 1)
    rw [show i + (j - i - 1 + 1) = j by omega, heq] at h1
    exact ⟨g^[j] x₀, hmem j, h1⟩
  · have hlt2 : j < i := by omega
    have h1 := hreach j (i - j - 1)
    rw [show j + (i - j - 1 + 1) = i by omega, ← heq] at h1
    exact ⟨g^[i] x₀, hmem i, h1⟩

theorem kahnFuel_isSome_of_acyclic {E : List (Nat × Nat)}
    (hacyc : Acyclic E) :
    ∀ (fuel : Nat) (rem : List Nat), rem.length ≤ fuel →
      (kahnFuel E fuel rem).isSome := by
  intro fuel
  induction fuel with
  | zero =>
    intro rem hle
    match rem with
    | [] => simp [kahnFuel]
    | x :: xs => simp at hle
  | succ n ih =>
    intro rem hle
    match rem with
    | [] => simp [kahnFuel]
    | x :: xs =>
      cases hp : pick E (x :: xs) with
      | none =>
        obtain ⟨v, _, hcyc⟩ :=
          exists_cycle_of_blocked E (x :: xs) (by simp) (pick_none hp)
        exact absurd hcyc (hacyc v)
      | some w =>
        have hw : w ∈ x :: xs := pick_mem hp
        have hlen : ((x :: xs).erase w).length ≤ n := by
          rw [List.length_erase_of_mem hw]
          simp only [List.length_cons] at hle ⊢
          omega
        have := ih ((x :: xs).erase w) hlen
        obtain ⟨l, hl⟩ := Option.isSome_iff_exists.mp this
        simp [kahnFuel, hp, hl]

theorem kahn_isSome_of_acyclic {E : List (Nat × Nat)} (hacyc : Acyclic E)
    (rem : List Nat) : (kahn E rem).isSome :=
  kahnFuel_isSome_of_acyclic hacyc rem.length rem le_rfl

/-- An edge list in which every edge ascends strictly admits no cycle. -/
theorem acyclic_of_lt {E : List (Nat × Nat)} (h : ∀ e ∈ E, e.1 < e.2) :
    Acyclic E := by
  have hlt : ∀ u v, Reach E u v → u < v := by
    intro u v hr
    induction hr with
    | single he => exact h _ he
    | cons he _ ih => exact lt_trans (h _ he) ih
  intro v hv
  exact absurd (hlt v v hv) (lt_irrefl v)

/-! ## Scheduler (backends/scheduler.rs).

The standalone scheduler keys the dependency graph by each node's own id
field (node.id.get()), not by the node's position in the list, and draws an
edge from every operand id to the consuming node's id.  Value payloads
(fill constants, operator tags, alpha/beta scalars) are omitted from the Op
embedding below because topo_order reads only the operand ids; the wildcard
arm of the Rust match covers every variant without operands. -/

namespace Sched

/-- Operation tag as matched by topo_order in backends/scheduler.rs. -/
inductive Op where
  | fill : Op
  | arange : Op
  | binaryOp (l r : Nat) : Op
  | unaryOp (v : Nat) : Op
  | fusedMulAdd (a b c : Nat) : Op
  | matMul (l r : Nat) (o : Option Nat) : Op
  | permute (v : Nat) : Op
  | noOp : Op
deriving DecidableEq

/-- Operand ids contributing dependency edges, in the order the Rust match
arms call add_edge. -/
def Op.operands : Op → List Nat
  | .binaryOp l r => [l, r]
  | .unaryOp v => [v]
  | .fusedMulAdd a b c => [a, b, c]
  | .matMul l r o => [l, r] ++ o.toList
  | .permute v => [v]
  | _ => []

/-- GraphNode as seen by the scheduler: an id plus its operation. -/
structure Node where
  id : Nat
  op : Op
deriving DecidableEq

/-- Dependency edges: operand id to consumer id, in node order. -/
def edges (g : List Node) : List (Nat × Nat) :=
  g.flatMap fun n => n.op.operands.map (fun p => (p, n.id))

/-- Vertex insertion order of the DiGraphMap: first add_node for every
node id, then add_edge inserts any missing endpoints. -/
def vertices (g : List Node) : List Nat :=
  (edges g).foldl addEdgeVerts ((g.map Node.id).foldl addVertex [])

/-- Model of topo_order: build the dependency graph and toposort it;
toposort failure (cycle) is the panic branch, modelled as none. -/
def topoOrder (g : List Node) : Option (List Nat) :=
  kahn (edges g) (vertices g)

theorem mem_vertices_of_addVertex {vs : List Nat} {v w : Nat}
    (h : v ∈ vs) : v ∈ addVertex vs w := by
  unfold addVertex
  split <;> simp [h]

theorem self_mem_addVertex (vs : List Nat) (v : Nat) : v ∈ addVertex vs v := by
  unfold addVertex
  split <;> simp_all

theorem mem_foldl_addEdgeVerts {es : List (Nat × Nat)} :
    ∀ {vs : List Nat} {v : Nat}, v ∈ vs → v ∈ es.foldl addEdgeVerts vs := by
  induction es with
  | nil => intro vs v h; simpa using h
  | cons e es ih =>
    intro vs v h
    exact ih (mem_vertices_of_addVertex (mem_vertices_of_addVertex h))

theorem edge_endpoints_mem_foldl {es : List (Nat × Nat)} :
    ∀ {vs : List Nat} {e : Nat × Nat}, e ∈ es →
      e.1 ∈ es.foldl addEdgeVerts vs ∧ e.2 ∈ es.foldl addEdgeVerts vs := by
  induction es with
  | nil => intro vs e h; simp at h
  | cons f es ih =>
    intro vs e h
    rcases List.mem_cons.mp h with rfl | h
    · simp only [List.foldl_cons, addEdgeVerts]
      constructor
      · exact mem_foldl_addEdgeVerts
          (mem_vertices_of_addVertex (self_mem_addVertex vs e.1))
      · exact mem_foldl_addEdgeVerts (self_mem_addVertex (addVertex vs e.1) e.2)
    · simp only [List.foldl_cons]
      exact ih h

theorem edge_endpoints_mem_vertices {g : List Node} {e : Nat × Nat}
    (h : e ∈ edges g) : e.1 ∈ vertices g ∧ e.2 ∈ vertices g :=
  edge_endpoints_mem_foldl h

theorem mem_edges_of_operand {g : List Node} {n : Node} (hn : n ∈ g)
    {p : Nat} (hp : p ∈ n.op.operands) : (p, n.id) ∈ edges g := by
  unfold edges
  rw [List.mem_flatMap]
  exact ⟨n, hn, List.mem_map.mpr ⟨p, hp, rfl⟩⟩

theorem foldl_addVertex_of_nodup :
    ∀ (l ws : List Nat), (ws ++ l).Nodup → List.foldl addVertex ws l = ws ++ l := by
  intro l
  induction l with
  | nil => intro ws h; simp
  | cons x xs ih =>
    intro ws h
    have hx : x ∉ ws := by
      intro hc
      exact List.disjoint_of_nodup_append h hc (List.mem_cons_self x xs)
    simp only [List.foldl_cons]
    rw [show addVertex ws x = ws ++ [x] from by unfold addVertex; rw [if_neg hx]]
    rw [ih (ws ++ [x]) (by simpa using h)]
    simp

theorem foldl_addEdgeVerts_of_mem :
    ∀ (es : List (Nat × Nat)) (vs : List Nat),
      (∀ e ∈ es, e.1 ∈ vs ∧ e.2 ∈ vs) → es.foldl addEdgeVerts vs = vs := by
  intro es
  induction es with
  | nil => intro vs _; rfl
  | cons e es ih =>
    intro vs h
    have he := h e (List.mem_cons_self e es)
    simp only [List.foldl_cons, addEdgeVerts]
    rw [show addVertex vs e.1 = vs from by unfold addVertex; rw [if_pos he.1]]
    rw [show addVertex vs e.2 = vs from by unfold addVertex; rw [if_pos he.2]]
    exact ih vs fun f hf => h f (List.mem_cons_of_mem e hf)

theorem map_id_eq_range {g : List Node}
    (hid : ∀ i (h : i < g.length), (g.get ⟨i, h⟩).id = i) :
    g.map Node.id = List.range g.length := by
  apply List.ext_get
  · simp
  · intro i h1 h2
    simp only [List.get_eq_getElem, List.getElem_map, List.getElem_range]
    exact hid i (by simpa using h1)

theorem vertices_eq_range {g : List Node}
    (hid : ∀ i (h : i < g.length), (g.get ⟨i, h⟩).id = i)
    (hop : ∀ n ∈ g, ∀ p ∈ n.op.operands, p < g.length) :
    vertices g = List.range g.length := by
  unfold vertices
  rw [map_id_eq_range hid,
    foldl_addVertex_of_nodup _ [] (by simpa using List.nodup_range g.length)]
  refine foldl_addEdgeVerts_of_mem _ _ ?_
  intro e he
  unfold edges at he
  rw [List.mem_flatMap] at he
  obtain ⟨n, hn, hmem⟩ := he
  rw [List.mem_map] at hmem
  obtain ⟨p, hp, rfl⟩ := hmem
  constructor
  · exact List.mem_range.mpr (hop n hn p hp)
  · have : n.id ∈ g.map Node.id := List.mem_map.mpr ⟨n, hn, rfl⟩
    rw [map_id_eq_range hid] at this
    exact this

/-- C1 (amended): for an acyclic node list whose node ids equal their list
positions and whose operand ids all refer to nodes in the list, topo_order
returns a permutation of the indices 0..len in which every operand index
appears strictly before its consumer's index. -/
theorem topo_order_valid (g : List Node)
    (hid : ∀ i (h : i < g.length), (g.get ⟨i, h⟩).id = i)
    (hop : ∀ n ∈ g, ∀ p ∈ n.op.operands, p < g.length)
    (hacyc : Acyclic (edges g)) :
    ∃ ord, topoOrder g = some ord ∧ ord.Perm (List.range g.length) ∧
      ∀ i (h : i < g.length), ∀ p ∈ (g.get ⟨i, h⟩).op.operands,
        ord.indexOf p < ord.indexOf i := by
  have hv := vertices_eq_range hid hop
  obtain ⟨ord, hord⟩ :=
    Option.isSome_iff_exists.mp (kahn_isSome_of_acyclic hacyc (vertices g))
  refine ⟨ord, hord, ?_, ?_⟩
  · exact hv ▸ kahn_perm hord
  · intro i h p hp
    have hn : g.get ⟨i, h⟩ ∈ g := List.get_mem g i h
    have he : (p, i) ∈ edges g := by
      have := mem_edges_of_operand hn hp
      rwa [hid i h] at this
    have hp1 : p ∈ vertices g := by
      rw [hv]
      exact List.mem_range.mpr (hop _ hn p hp)
    have hp2 : i ∈ vertices g := by
      rw [hv]
      exact List.mem_range.mpr h
    exact kahn_precedes hord he hp1 hp2

/-- Witness for C1 at a concrete two-node list (fill consumed by a unary). -/
theorem topo_order_valid_witness :
    ∃ ord, topoOrder [⟨0, .fill⟩, ⟨1, .unaryOp 0⟩] = some ord ∧
      ord.Perm (List.range (List.length [(⟨0, .fill⟩ : Node), ⟨1, .unaryOp 0⟩])) ∧
      ∀ i (h : i < List.length [(⟨0, .fill⟩ : Node), ⟨1, .unaryOp 0⟩]),
        ∀ p ∈ (([⟨0, .fill⟩, ⟨1, .unaryOp 0⟩] : List Node).get ⟨i, h⟩).op.operands,
          ord.indexOf p < ord.indexOf i :=
  topo_order_valid _ (by decide) (by decide) (acyclic_of_lt (by decide))

/-- Counterexample to C1 as stated: the acyclic single-node list whose node
has id 5 is scheduled as [5], which is not a permutation of 0..1, because
topo_order keys the dependency graph by the id field rather than by list
position. -/
theorem topo_order_not_range_counterexample :
    Acyclic (edges [(⟨5, .fill⟩ : Node)]) ∧
      topoOrder [(⟨5, .fill⟩ : Node)] = some [5] ∧
      ¬ ([5] : List Nat).Perm (List.range (List.length [(⟨5, .fill⟩ : Node)])) := by
  refine ⟨acyclic_of_lt (by decide), by decide, ?_⟩
  intro h
  have := h.mem_iff (a := 5)
  simp at this

/-- C2: a node list with a self-referential or mutual operand cycle makes
topo_order fail; determinism is inherent since the embedding is a pure
function of the node list. -/
theorem topo_order_fails_on_cycle (g : List Node)
    (h : (∃ n ∈ g, n.id ∈ n.op.operands) ∨
      (∃ n ∈ g, ∃ m ∈ g, m.id ∈ n.op.operands ∧ n.id ∈ m.op.operands)) :
    topoOrder g = none := by
  cases hres : topoOrder g with
  | none => rfl
  | some ord =>
    exfalso
    have hedge : ∀ n ∈ g, ∀ p ∈ n.op.operands, (p, n.id) ∈ edges g := by
      intro n hn p hp
      unfold edges
      rw [List.mem_flatMap]
      exact ⟨n, hn, List.mem_map.mpr ⟨p, hp, rfl⟩⟩
    rcases h with ⟨n, hn, hself⟩ | ⟨n, hn, m, hm, hnm, hmn⟩
    · have he : (n.id, n.id) ∈ edges g := hedge n hn n.id hself
      have hv := edge_endpoints_mem_vertices he
      exact absurd (kahn_precedes hres he hv.1 hv.2) (lt_irrefl _)
    · have he1 : (m.id, n.id) ∈ edges g := hedge n hn m.id hnm
      have he2 : (n.id, m.id) ∈ edges g := hedge m hm n.id hmn
      have hv1 := edge_endpoints_mem_vertices he1
      have hv2 := edge_endpoints_mem_vertices he2
      have h1 := kahn_precedes hres he1 hv1.1 hv1.2
      have h2 := kahn_precedes hres he2 hv2.1 hv2.2
      omega

/-- Witness for C2 at a concrete self-referential node list. -/
theorem topo_order_fails_on_cycle_witness :
    topoOrder [⟨0, .unaryOp 0⟩] = none :=
  topo_order_fails_on_cycle _ (Or.inl (by decide))

end Sched

/-! ## CPU backend interpreter (cpu_storage/mod.rs).

compile_and_run_graph keys the dependency graph by list position (enumerate),
toposorts, then evaluates every scheduled node into a results table.  Scalars
are modelled by exact rationals standing for the generic element type T (the
f64 round-trips to_f64/from_f64 of the Arange loop become identities); the
SimdSupported elementwise kernels and the BufferPool are absent from the
sources, so they are modelled from the spec as noted on each definition. -/

namespace Cpu

/-- BinaryOpType as used by the elementwise kernels (Add/Div/Mul/Sub). -/
inductive BOpT where
  | add : BOpT
  | sub : BOpT
  | mul : BOpT
  | div : BOpT
deriving DecidableEq

/-- Scalar action of a binary operator. -/
def BOpT.apply : BOpT → ℚ → ℚ → ℚ
  | .add, a, b => a + b
  | .sub, a, b => a - b
  | .mul, a, b => a * b
  | .div, a, b => a / b

/-- Modelled from the spec: UnaryOpType (negate, sqrt, exp, ...) abstracted
by the scalar closure the interpreter obtains via to_closure; the claims do
not depend on any particular unary operator. -/
structure UOpT where
  toClosure : ℚ → ℚ

/-- Negation, the one unary operator whose exact-arithmetic meaning matters
to the concrete witnesses. -/
def UOpT.neg : UOpT := ⟨fun x => -x⟩

/-- Op as matched by the CPU interpreter of this source snapshot. -/
inductive Op where
  | binaryOp (l r : Nat) (operator : BOpT) : Op
  | inplaceBinaryOp (out l r : Nat) (operator : BOpT) : Op
  | fill (v : ℚ) : Op
  | arange (start step stop : ℚ) : Op
  | unaryOp (v : Nat) (operator : UOpT) : Op
  | fusedMulAdd (a b c : Nat) : Op
  | inplaceFusedMulAdd (a b c out : Nat) : Op
  | matMul (l r : Nat) (k : Nat) : Op
  | noOp : Op

/-- GraphNode: operation plus flattened output shape. -/
structure Node where
  op : Op
  shape : List Nat

/-- Failure modes of the interpreter; each models a specific panic or error
branch of compile_and_run_graph. -/
inductive Err where
  | cycle : Err
  | badNodeIndex : Err
  | missingOperand : Err
  | inplaceUnreachable : Err
  | matmulAssert : Err
  | bufferIndexOOB : Err
  | arangeDiverges : Err
  | missingResult : Err
  | noOpEvaluated : Err
deriving DecidableEq

/-- Read results[i]: a missing entry is the unwrap panic on a None operand,
an out-of-range index the slice-index panic. -/
def getBuf (results : List (Option (List ℚ))) (i : Nat) : Except Err (List ℚ) :=
  match results.get? i with
  | some (some b) => .ok b
  | _ => .error .missingOperand

/-- Modelled from the spec: BufferPool get_buffer yields a length-n buffer;
recycled contents are irrelevant to the claims and modelled as zeros. -/
def mkBuffer (n : Nat) : List ℚ := List.replicate n 0

/-- Modelled from the spec: the vectorized elementwise binary kernel family
(binary_simd_op and its in-place variants) computes out[i] = l[i] op r[i];
operands have equal element counts by the shape invariant. -/
def binarySimd (operator : BOpT) (l r : List ℚ) : List ℚ :=
  List.zipWith operator.apply l r

/-- Modelled from the spec: the fused multiply-add kernel family (fma_op and
its in-place variants) computes out[i] = a[i]*b[i] + c[i]. -/
def fmaKernel : List ℚ → List ℚ → List ℚ → List ℚ
  | x :: xs, y :: ys, z :: zs => (x * y + z) :: fmaKernel xs ys zs
  | _, _, _ => []

/-- The UnaryOp arm zips the output buffer with the source buffer, so it
writes f(src[i]) for i below both lengths and leaves any remaining output
positions untouched. -/
def unaryOut (f : ℚ → ℚ) : List ℚ → List ℚ → List ℚ
  | [], _ => []
  | o :: os, [] => o :: os
  | _ :: os, x :: xs => f x :: unaryOut f os xs

/-- The Arange loop: push x and add step while x < stop.  A loop that can
never reach stop (nonpositive step with x < stop) does not terminate in the
Rust source; the model returns none there. -/
def arangeLoop (stop step x : ℚ) : Option (List ℚ) :=
  if h1 : x < stop then
    if h2 : 0 < step then
      (arangeLoop stop step (x + step)).map (fun l => x :: l)
    else none
  else some []
termination_by (⌈(stop - x) / step⌉).toNat
decreasing_by
  have hq : 0 < ⌈(stop - x) / step⌉ :=
    Int.ceil_pos.mpr (div_pos (by linarith) h2)
  have hceil : ⌈(stop - (x + step)) / step⌉ = ⌈(stop - x) / step⌉ - 1 := by
    rw [show stop - (x + step) = stop - x - step by ring, sub_div,
      div_self (ne_of_gt h2)]
    exact Int.ceil_sub_one _
  rw [hceil]
  omega

/-- Read a flat buffer element; a missing index is the slice-index panic. -/
def readBuf (l : List ℚ) (i : Nat) : Except Err ℚ :=
  match l.get? i with
  | some x => .ok x
  | none => .error .bufferIndexOOB

/-- One term of the MatMul contraction: sum = sum + a[i*k+p] * b[p*n+j]
(the body of the innermost loop, named for the embedding). -/
def dotStep (a b : List ℚ) (i j n kdim : Nat) (s : ℚ) (p : Nat) : Except Err ℚ :=
  match readBuf a (i * kdim + p), readBuf b (p * n + j) with
  | .ok av, .ok bv => .ok (s + av * bv)
  | .error e, _ => .error e
  | _, .error e => .error e

/-- Inner contraction of the MatMul arm:
sum = sum + a[i*k + p] * b[p*n + j] over p in 0..k. -/
def dotProd (a b : List ℚ) (i j n kdim : Nat) : Except Err ℚ :=
  (List.range kdim).foldlM (dotStep a b i j n kdim) 0

/-- Body of the column loop of the MatMul arm: out[i*n + j] = sum. -/
def matmulInner (a b : List ℚ) (n kdim i : Nat) (row : List ℚ) (j : Nat) :
    Except Err (List ℚ) :=
  match dotProd a b i j n kdim with
  | .ok s => .ok (row.set (i * n + j) s)
  | .error e => .error e

/-- The MatMul arm's nested loops writing out[i*n + j] for i < m, j < n
into a fresh length-m*n buffer. -/
def matmulLoop (a b : List ℚ) (m n kdim : Nat) : Except Err (List ℚ) :=
  (List.range m).foldlM
    (fun out i => (List.range n).foldlM (matmulInner a b n kdim i) out)
    (mkBuffer (m * n))

/-- Evaluation of one node's op against the results table, storing the
computed buffer at idx (the body of the match inside the evaluation loop of
compile_and_run_graph).  The in-place arms mirror the Rust take order: the
out-matching operand is taken (its entry cleared) before the remaining
operands are read.  shape is the node's output shape. -/
def evalNode (op : Op) (shape : List Nat)
    (results : List (Option (List ℚ))) (idx : Nat) :
    Except Err (List (Option (List ℚ))) :=
  match op with
    | .binaryOp l r operator =>
      match getBuf results l, getBuf results r with
      | .ok lb, .ok rb =>
        .ok (results.set idx (some (binarySimd operator lb rb)))
      | .error e, _ => .error e
      | _, .error e => .error e
    | .inplaceBinaryOp out l r operator =>
      if out = l then
        match getBuf results l with
        | .error e => .error e
        | .ok lb =>
          match getBuf (results.set l none) r with
          | .error e => .error e
          | .ok rb =>
            .ok ((results.set l none).set idx (some (binarySimd operator lb rb)))
      else if out = r then
        match getBuf results r with
        | .error e => .error e
        | .ok rb =>
          match getBuf (results.set r none) l with
          | .error e => .error e
          | .ok lb =>
            .ok ((results.set r none).set idx (some (binarySimd operator lb rb)))
      else .error .inplaceUnreachable
    | .fill v =>
      .ok (results.set idx (some (List.replicate shape.prod v)))
    | .arange start step stop =>
      match arangeLoop stop step start with
      | some buf => .ok (results.set idx (some buf))
      | none => .error .arangeDiverges
    | .unaryOp v operator =>
      match getBuf results v with
      | .error e => .error e
      | .ok vb =>
        .ok (results.set idx
          (some (unaryOut operator.toClosure (mkBuffer shape.prod) vb)))
    | .fusedMulAdd a b c =>
      match getBuf results a, getBuf results b, getBuf results c with
      | .ok ab, .ok bb, .ok cb =>
        .ok (results.set idx (some (fmaKernel ab bb cb)))
      | .error e, _, _ => .error e
      | _, .error e, _ => .error e
      | _, _, .error e => .error e
    | .inplaceFusedMulAdd a b c out =>
      if out = a then
        match getBuf results a with
        | .error e => .error e
        | .ok ab =>
          match getBuf (results.set a none) b, getBuf (results.set a none) c with
          | .ok bb, .ok cb =>
            .ok ((results.set a none).set idx (some (fmaKernel ab bb cb)))
          | .error e, _ => .error e
          | _, .error e => .error e
      else if out = b then
        match getBuf results b with
        | .error e => .error e
        | .ok bb =>
          match getBuf (results.set b none) a, getBuf (results.set b none) c with
          | .ok ab, .ok cb =>
            .ok ((results.set b none).set idx (some (fmaKernel ab bb cb)))
          | .error e, _ => .error e
          | _, .error e => .error e
      else if out = c then
        match getBuf results c with
        | .error e => .error e
        | .ok cb =>
          match getBuf (results.set c none) a, getBuf (results.set c none) b with
          | .ok ab, .ok bb =>
            .ok ((results.set c none).set idx (some (fmaKernel ab bb cb)))
          | .error e, _ => .error e
          | _, .error e => .error e
      else .error .inplaceUnreachable
    | .matMul l r kdim =>
      match getBuf results l, getBuf results r with
      | .ok ab, .ok bb =>
        if shape.length = 2 then
          match matmulLoop ab bb (shape.getD 0 0) (shape.getD 1 0) kdim with
          | .ok out => .ok (results.set idx (some out))
          | .error e => .error e
        else .error .matmulAssert
      | .error e, _ => .error e
      | _, .error e => .error e
    | .noOp => .error .noOpEvaluated

/-- One iteration of the evaluation loop of compile_and_run_graph: look up
graph[idx] (an out-of-range index is the slice panic) and evaluate it. -/
def evalStep (g : List Node) (results : List (Option (List ℚ))) (idx : Nat) :
    Except Err (List (Option (List ℚ))) :=
  match g.get? idx with
  | none => .error .badNodeIndex
  | some node => evalNode node.op node.shape results idx

/-- Operand ids contributing edges in the CPU dependency-graph construction
(keyed by list position; the out id of an in-place op is not an edge). -/
def cpuOperands : Op → List Nat
  | .binaryOp l r _ => [l, r]
  | .inplaceBinaryOp _ l r _ => [l, r]
  | .unaryOp v _ => [v]
  | .fusedMulAdd a b c => [a, b, c]
  | .inplaceFusedMulAdd a b c _ => [a, b, c]
  | .matMul l r _ => [l, r]
  | .noOp => []
  | .fill _ => []
  | .arange _ _ _ => []

/-- Dependency edges of the CPU backend: operand id to consumer position. -/
def cpuEdges (g : List Node) : List (Nat × Nat) :=
  g.enum.flatMap fun p => (cpuOperands p.2.op).map (fun q => (q, p.1))

/-- Vertex insertion order: add_node for 0..len, then edge endpoints. -/
def cpuVertices (g : List Node) : List Nat :=
  (cpuEdges g).foldl addEdgeVerts (List.range g.length)

/-- compile_and_run_graph: toposort by position, evaluate every scheduled
node in order, extract the buffer of the last-appended node. -/
def runGraph (g : List Node) : Except Err (List ℚ) :=
  match kahn (cpuEdges g) (cpuVertices g) with
  | none => .error .cycle
  | some order =>
    match order.foldlM (evalStep g) (List.replicate g.length none) with
    | .error e => .error e
    | .ok results =>
      match results.get? (g.length - 1) with
      | some (some buf) => .ok buf
      | _ => .error .missingResult

theorem getBuf_error {res : List (Option (List ℚ))} {i : Nat} {e : Err}
    (h : getBuf res i = .error e) : e = .missingOperand := by
  unfold getBuf at h
  split at h
  · exact absurd h (by simp)
  · injection h with h
    exact h.symm

theorem readBuf_error {l : List ℚ} {i : Nat} {e : Err}
    (h : readBuf l i = .error e) : e = .bufferIndexOOB := by
  unfold readBuf at h
  split at h
  · exact absurd h (by simp)
  · injection h with h
    exact h.symm

theorem foldlM_error_class {α σ : Type} (P : Err → Prop)
    {f : σ → α → Except Err σ} (hf : ∀ s a e, f s a = .error e → P e) :
    ∀ (l : List α) (s : σ) (e : Err), l.foldlM f s = .error e → P e := by
  intro l
  induction l with
  | nil =>
    intro s e h
    rw [List.foldlM_nil] at h
    exact absurd h (by simp [pure, Except.pure])
  | cons a l ih =>
    intro s e h
    rw [List.foldlM_cons] at h
    cases hfa : f s a with
    | ok s2 =>
      rw [hfa] at h
      simp only [bind, Except.bind] at h
      exact ih s2 e h
    | error e2 =>
      rw [hfa] at h
      simp only [bind, Except.bind] at h
      injection h with h
      subst h
      exact hf s a e2 hfa

theorem dotProd_error {a b : List ℚ} {i j n kdim : Nat} {e : Err}
    (h : dotProd a b i j n kdim = .error e) : e = .bufferIndexOOB := by
  unfold dotProd at h
  refine foldlM_error_class (fun e => e = Err.bufferIndexOOB) ?_
    (List.range kdim) 0 e h
  intro s p e2 hsp
  unfold dotStep at hsp
  split at hsp
  · simp at hsp
  · injection hsp with hsp
    subst hsp
    exact readBuf_error (by assumption)
  · injection hsp with hsp
    subst hsp
    exact readBuf_error (by assumption)

theorem matmulLoop_error {a b : List ℚ} {m n kdim : Nat} {e : Err}
    (h : matmulLoop a b m n kdim = .error e) : e = .bufferIndexOOB := by
  unfold matmulLoop at h
  refine foldlM_error_class (fun e => e = Err.bufferIndexOOB) ?_
    (List.range m) (mkBuffer (m * n)) e h
  intro out i e2 hrow
  refine foldlM_error_class (fun e => e = Err.bufferIndexOOB) ?_
    (List.range n) out e2 hrow
  intro row j e3 hj
  unfold matmulInner at hj
  split at hj
  · simp at hj
  · injection hj with hj
    subst hj
    exact dotProd_error (by assumption)

theorem getBuf_not_noOpErr {res : List (Option (List ℚ))} {i : Nat} :
    ¬ getBuf res i = Except.error Err.noOpEvaluated := by
  intro h
  have := getBuf_error h
  simp at this

theorem matmulLoop_not_noOpErr {a b : List ℚ} {m n kdim : Nat} :
    ¬ matmulLoop a b m n kdim = Except.error Err.noOpEvaluated := by
  intro h
  have := matmulLoop_error h
  simp at this

theorem evalNode_noOpErr_inv {op : Op} {shape : List Nat}
    {res : List (Option (List ℚ))} {idx : Nat}
    (h : evalNode op shape res idx = .error .noOpEvaluated) : op = .noOp := by
  cases op
  case noOp => rfl
  all_goals simp only [evalNode] at h
  all_goals exfalso
  iterate 8 (all_goals try split at h)
  all_goals
    first
      | exact Except.noConfusion h
      | (injection h with h; first
          | exact Err.noConfusion h
          | (subst h; first
              | exact getBuf_not_noOpErr (by assumption)
              | exact matmulLoop_not_noOpErr (by assumption)))

theorem evalStep_noOpErr_inv {g : List Node} {res : List (Option (List ℚ))}
    {idx : Nat} (h : evalStep g res idx = .error .noOpEvaluated) :
    ∃ node ∈ g, node.op = .noOp := by
  unfold evalStep at h
  cases hg : g.get? idx with
  | none => rw [hg] at h; exact absurd h (by simp)
  | some node =>
    rw [hg] at h
    exact ⟨node, List.get?_mem hg, evalNode_noOpErr_inv h⟩

theorem foldlM_evalStep_noOpErr_inv {g : List Node} {order : List Nat}
    {res : List (Option (List ℚ))}
    (h : order.foldlM (evalStep g) res = .error .noOpEvaluated) :
    ∃ node ∈ g, node.op = .noOp := by
  refine foldlM_error_class
    (fun e => e = .noOpEvaluated → ∃ node ∈ g, node.op = .noOp)
    ?_ order res _ h rfl
  intro s i e hse hnoe
  subst hnoe
  exact evalStep_noOpErr_inv hse

/-- C8 (amended): a node list with no NoOp node never reaches the NoOp
evaluation branch of the CPU interpreter; the interpreter does evaluate
every scheduled node, so the restriction to NoOp-free lists is necessary
(see the counterexample). -/
theorem noop_branch_unreachable (g : List Node)
    (hno : ∀ n ∈ g, n.op ≠ .noOp) :
    runGraph g ≠ .error .noOpEvaluated := by
  intro hc
  unfold runGraph at hc
  cases hk : kahn (cpuEdges g) (cpuVertices g) with
  | none => simp [hk] at hc
  | some order =>
    simp only [hk] at hc
    cases hf : order.foldlM (evalStep g) (List.replicate g.length none) with
    | ok results =>
      simp only [hf] at hc
      cases hr : results[g.length - 1]? with
      | none => simp [hr] at hc
      | some ob =>
        cases ob with
        | none => simp [hr] at hc
        | some buf => simp [hr] at hc
    | error e =>
      simp only [hf] at hc
      injection hc with hc
      subst hc
      obtain ⟨node, hmem, hop⟩ := foldlM_evalStep_noOpErr_inv hf
      exact hno node hmem hop

/-- Witness for C8 at a NoOp-free single-fill list. -/
theorem noop_branch_unreachable_witness :
    runGraph [⟨.fill 1, [2]⟩] ≠ .error .noOpEvaluated :=
  noop_branch_unreachable _ (by
    intro n hn
    simp only [List.mem_singleton] at hn
    subst hn
    simp)

/-- Counterexample to C8 as stated: the CPU interpreter evaluates every
scheduled node, so a node list containing a NoOp does reach the NoOp
evaluation branch (the unreachable panic, modelled as this error). -/
theorem noop_branch_reached_counterexample :
    runGraph [⟨.noOp, [1]⟩] = .error .noOpEvaluated := rfl

/-- An in-place node is well formed when its out id equals one of its
operand ids. -/
def inplaceOk : Op → Prop
  | .inplaceBinaryOp out l r _ => out = l ∨ out = r
  | .inplaceFusedMulAdd a b c out => out = a ∨ out = b ∨ out = c
  | _ => True

instance (op : Op) : Decidable (inplaceOk op) := by
  cases op <;> simp only [inplaceOk] <;> infer_instance

theorem getBuf_not_inplaceErr {res : List (Option (List ℚ))} {i : Nat} :
    ¬ getBuf res i = Except.error Err.inplaceUnreachable := by
  intro h
  have := getBuf_error h
  simp at this

theorem matmulLoop_not_inplaceErr {a b : List ℚ} {m n kdim : Nat} :
    ¬ matmulLoop a b m n kdim = Except.error Err.inplaceUnreachable := by
  intro h
  have := matmulLoop_error h
  simp at this

theorem evalNode_inplaceErr_inv {op : Op} {shape : List Nat}
    {res : List (Option (List ℚ))} {idx : Nat}
    (h : evalNode op shape res idx = .error .inplaceUnreachable)
    (hok : inplaceOk op) : False := by
  cases op
  all_goals simp only [evalNode, inplaceOk] at h hok
  iterate 8 (all_goals try split at h)
  all_goals
    first
      | exact Except.noConfusion h
      | (injection h with h; first
          | exact Err.noConfusion h
          | (subst h; first
              | exact getBuf_not_inplaceErr (by assumption)
              | exact matmulLoop_not_inplaceErr (by assumption))
          | tauto)

theorem evalStep_inplaceErr_inv {g : List Node} {res : List (Option (List ℚ))}
    {idx : Nat} (h : evalStep g res idx = .error .inplaceUnreachable) :
    ∃ node ∈ g, ¬ inplaceOk node.op := by
  unfold evalStep at h
  cases hg : g.get? idx with
  | none => rw [hg] at h; exact absurd h (by simp)
  | some node =>
    rw [hg] at h
    refine ⟨node, List.get?_mem hg, fun hok => evalNode_inplaceErr_inv h hok⟩

theorem getBuf_some {res : List (Option (List ℚ))} {i : Nat} {b : List ℚ}
    (h : getBuf res i = .ok b) : res.get? i = some (some b) := by
  unfold getBuf at h
  split at h
  · next heq =>
    injection h with h
    subst h
    exact heq
  · exact absurd h (by simp)

theorem lt_length_of_getBuf {res : List (Option (List ℚ))} {i : Nat}
    {b : List ℚ} (h : getBuf res i = .ok b) : i < res.length :=
  (List.get?_eq_some.mp (getBuf_some h)).1

theorem getBuf_set_ne {res : List (Option (List ℚ))} {i j : Nat}
    {v : Option (List ℚ)} (hne : j ≠ i) :
    getBuf (res.set j v) i = getBuf res i := by
  unfold getBuf
  rw [List.get?_eq_getElem?, List.get?_eq_getElem?, List.getElem?_set_ne hne]

/-- C10 (amended): if every in-place node's out id equals one of its operand
ids, the interpreter's unreachable branch for the in-place variants is never
reached; and whenever, in addition, the remaining operand ids differ from
out, the node's result is the elementwise mutation of exactly the taken out
buffer: the out operand's table entry is cleared, the node's entry receives
the mutated buffer, and every other entry is unchanged.  (When a remaining
operand id coincides with out, the interpreter instead hits the
missing-operand unwrap panic: see the counterexample.) -/
theorem inplace_take_mutate (g : List Node)
    (hok : ∀ n ∈ g, inplaceOk n.op) :
    runGraph g ≠ .error .inplaceUnreachable ∧
    (∀ out l r operator shape (res : List (Option (List ℚ))) idx lb rb,
      out = l → r ≠ l → idx < res.length →
      getBuf res l = .ok lb → getBuf res r = .ok rb →
      ∃ res2, evalNode (.inplaceBinaryOp out l r operator) shape res idx = .ok res2 ∧
        res2.get? idx = some (some (binarySimd operator lb rb)) ∧
        (l ≠ idx → res2.get? l = some none) ∧
        (∀ j, j ≠ idx → j ≠ l → res2.get? j = res.get? j)) ∧
    (∀ out l r operator shape (res : List (Option (List ℚ))) idx lb rb,
      out ≠ l → out = r → l ≠ r → idx < res.length →
      getBuf res l = .ok lb → getBuf res r = .ok rb →
      ∃ res2, evalNode (.inplaceBinaryOp out l r operator) shape res idx = .ok res2 ∧
        res2.get? idx = some (some (binarySimd operator lb rb)) ∧
        (r ≠ idx → res2.get? r = some none) ∧
        (∀ j, j ≠ idx → j ≠ r → res2.get? j = res.get? j)) ∧
    (∀ a b c out shape (res : List (Option (List ℚ))) idx ab bb cb,
      out = a → b ≠ a → c ≠ a → idx < res.length →
      getBuf res a = .ok ab → getBuf res b = .ok bb → getBuf res c = .ok cb →
      ∃ res2, evalNode (.inplaceFusedMulAdd a b c out) shape res idx = .ok res2 ∧
        res2.get? idx = some (some (fmaKernel ab bb cb)) ∧
        (a ≠ idx → res2.get? a = some none) ∧
        (∀ j, j ≠ idx → j ≠ a → res2.get? j = res.get? j)) ∧
    (∀ a b c out shape (res : List (Option (List ℚ))) idx ab bb cb,
      out ≠ a → out = b → a ≠ b → c ≠ b → idx < res.length →
      getBuf res a = .ok ab → getBuf res b = .ok bb → getBuf res c = .ok cb →
      ∃ res2, evalNode (.inplaceFusedMulAdd a b c out) shape res idx = .ok res2 ∧
        res2.get? idx = some (some (fmaKernel ab bb cb)) ∧
        (b ≠ idx → res2.get? b = some none) ∧
        (∀ j, j ≠ idx → j ≠ b → res2.get? j = res.get? j)) ∧
    (∀ a b c out shape (res : List (Option (List ℚ))) idx ab bb cb,
      out ≠ a → out ≠ b → out = c → a ≠ c → b ≠ c → idx < res.length →
      getBuf res a = .ok ab → getBuf res b = .ok bb → getBuf res c = .ok cb →
      ∃ res2, evalNode (.inplaceFusedMulAdd a b c out) shape res idx = .ok res2 ∧
        res2.get? idx = some (some (fmaKernel ab bb cb)) ∧
        (c ≠ idx → res2.get? c = some none) ∧
        (∀ j, j ≠ idx → j ≠ c → res2.get? j = res.get? j)) := by
  refine ⟨?_, ?_, ?_, ?_, ?_, ?_⟩
  · intro hc
    unfold runGraph at hc
    cases hk : kahn (cpuEdges g) (cpuVertices g) with
    | none => simp [hk] at hc
    | some order =>
      simp only [hk] at hc
      cases hf : order.foldlM (evalStep g) (List.replicate g.length none) with
      | ok results =>
        simp only [hf] at hc
        cases hr : results[g.length - 1]? with
        | none => simp [hr] at hc
        | some ob =>
          cases ob with
          | none => simp [hr] at hc
          | some buf => simp [hr] at hc
      | error e =>
        simp only [hf] at hc
        injection hc with hc
        subst hc
        obtain ⟨node, hmem, hbad⟩ := foldlM_error_class
          (fun e => e = .inplaceUnreachable → ∃ node ∈ g, ¬ inplaceOk node.op)
          (fun s i e hse hip => by subst hip; exact evalStep_inplaceErr_inv hse)
          order (List.replicate g.length none) _ hf rfl
        exact hbad (hok node hmem)
  · intro out l r operator shape res idx lb rb hol hrl hidx hl hr
    refine ⟨(res.set l none).set idx (some (binarySimd operator lb rb)), ?_, ?_, ?_, ?_⟩
    · simp only [evalNode, if_pos hol, hl]
      rw [getBuf_set_ne hrl.symm, hr]
    · rw [List.get?_eq_getElem?, List.getElem?_set_eq_of_lt]
      simpa using hidx
    · intro hli
      rw [List.get?_eq_getElem?, List.getElem?_set_ne (fun hc => hli hc.symm),
        List.getElem?_set_eq_of_lt]
      exact lt_length_of_getBuf hl
    · intro j hji hjl
      rw [List.get?_eq_getElem?, List.getElem?_set_ne (fun hc => hji hc.symm),
        List.getElem?_set_ne (fun hc => hjl hc.symm), List.get?_eq_getElem?]
  · intro out l r operator shape res idx lb rb hol hor hlr hidx hl hr
    refine ⟨(res.set r none).set idx (some (binarySimd operator lb rb)), ?_, ?_, ?_, ?_⟩
    · simp only [evalNode, if_neg hol, if_pos hor, hr]
      rw [getBuf_set_ne hlr.symm, hl]
    · rw [List.get?_eq_getElem?, List.getElem?_set_eq_of_lt]
      simpa using hidx
    · intro hri
      rw [List.get?_eq_getElem?, List.getElem?_set_ne (fun hc => hri hc.symm),
        List.getElem?_set_eq_of_lt]
      exact lt_length_of_getBuf hr
    · intro j hji hjr
      rw [List.get?_eq_getElem?, List.getElem?_set_ne (fun hc => hji hc.symm),
        List.getElem?_set_ne (fun hc => hjr hc.symm), List.get?_eq_getElem?]
  · intro a b c out shape res idx ab bb cb hoa hba hca hidx ha hb hc
    refine ⟨(res.set a none).set idx (some (fmaKernel ab bb cb)), ?_, ?_, ?_, ?_⟩
    · simp only [evalNode, if_pos hoa, ha]
      rw [getBuf_set_ne hba.symm, hb, getBuf_set_ne hca.symm, hc]
    · rw [List.get?_eq_getElem?, List.getElem?_set_eq_of_lt]
      simpa using hidx
    · intro hai
      rw [List.get?_eq_getElem?, List.getElem?_set_ne (fun hc2 => hai hc2.symm),
        List.getElem?_set_eq_of_lt]
      exact lt_length_of_getBuf ha
    · intro j hji hja
      rw [List.get?_eq_getElem?, List.getElem?_set_ne (fun hc2 => hji hc2.symm),
        List.getElem?_set_ne (fun hc2 => hja hc2.symm), List.get?_eq_getElem?]
  · intro a b c out shape res idx ab bb cb hoa hob hab hcb hidx ha hb hc
    refine ⟨(res.set b none).set idx (some (fmaKernel ab bb cb)), ?_, ?_, ?_, ?_⟩
    · simp only [evalNode, if_neg hoa, if_pos hob, hb]
      rw [getBuf_set_ne hab.symm, ha, getBuf_set_ne hcb.symm, hc]
    · rw [List.get?_eq_getElem?, List.getElem?_set_eq_of_lt]
      simpa using hidx
    · intro hbi
      rw [List.get?_eq_getElem?, List.getElem?_set_ne (fun hc2 => hbi hc2.symm),
        List.getElem?_set_eq_of_lt]
      exact lt_length_of_getBuf hb
    · intro j hji hjb
      rw [List.get?_eq_getElem?, List.getElem?_set_ne (fun hc2 => hji hc2.symm),
        List.getElem?_set_ne (fun hc2 => hjb hc2.symm), List.get?_eq_getElem?]
  · intro a b c out shape res idx ab bb cb hoa hob hoc hac hbc hidx ha hb hc
    refine ⟨(res.set c none).set idx (some (fmaKernel ab bb cb)), ?_, ?_, ?_, ?_⟩
    · simp only [evalNode, if_neg hoa, if_neg hob, if_pos hoc, hc]
      rw [getBuf_set_ne hac.symm, ha, getBuf_set_ne hbc.symm, hb]
    · rw [List.get?_eq_getElem?, List.getElem?_set_eq_of_lt]
      simpa using hidx
    · intro hci
      rw [List.get?_eq_getElem?, List.getElem?_set_ne (fun hc2 => hci hc2.symm),
        List.getElem?_set_eq_of_lt]
      exact lt_length_of_getBuf hc
    · intro j hji hjc
      rw [List.get?_eq_getElem?, List.getElem?_set_ne (fun hc2 => hji hc2.symm),
        List.getElem?_set_ne (fun hc2 => hjc hc2.symm), List.get?_eq_getElem?]

/-- Witness for C10 at a two-node graph (fill then in-place add over it with
distinct operand references taken from a concrete results table). -/
theorem inplace_take_mutate_witness :
    runGraph [⟨.fill 1, [1]⟩] ≠ .error .inplaceUnreachable ∧
    (∃ res2, evalNode (.inplaceBinaryOp 0 0 1 .add) [1] [some [5], some [7], none] 2 = .ok res2 ∧
      res2.get? 2 = some (some (binarySimd .add [5] [7])) ∧
      ((0 : Nat) ≠ 2 → res2.get? 0 = some none) ∧
      (∀ j, j ≠ 2 → j ≠ 0 →
        res2.get? j = ([some [5], some [7], none] : List (Option (List ℚ))).get? j)) := by
  have h := inplace_take_mutate [⟨.fill 1, [1]⟩] (by
    intro n hn
    simp only [List.mem_singleton] at hn
    subst hn
    simp [inplaceOk])
  refine ⟨h.1, ?_⟩
  have h2 := h.2.1 0 0 1 .add [1] [some [5], some [7], none] 2 [5] [7]
    rfl (by decide) (by decide) rfl rfl
  exact h2

theorem readBuf_ok {l : List ℚ} {i : Nat} (h : i < l.length) :
    readBuf l i = .ok (l.getD i 0) := by
  unfold readBuf
  rw [List.get?_eq_getElem?, List.getElem?_eq_getElem h, List.getD_eq_getElem l 0 h]

/-- The contraction value the MatMul arm computes at row i, column j. -/
def dotVal (a b : List ℚ) (i j n kdim : Nat) : ℚ :=
  ∑ p ∈ Finset.range kdim, a.getD (i * kdim + p) 0 * b.getD (p * n + j) 0

theorem dot_fold_ok (a b : List ℚ) (i j n kdim : Nat) :
    ∀ (kc : Nat), (∀ p, p < kc → i * kdim + p < a.length ∧ p * n + j < b.length) →
      ∀ s : ℚ, (List.range kc).foldlM (dotStep a b i j n kdim) s =
      .ok (s + ∑ p ∈ Finset.range kc,
        a.getD (i * kdim + p) 0 * b.getD (p * n + j) 0) := by
  intro kc
  induction kc with
  | zero =>
    intro _ s
    rw [List.range_zero, List.foldlM_nil]
    simp [pure, Except.pure]
  | succ kc ih =>
    intro hin s
    rw [List.range_succ, List.foldlM_append, ih (fun p hp => hin p (by omega)) s]
    simp only [bind, Except.bind, List.foldlM_cons, List.foldlM_nil, dotStep,
      readBuf_ok (hin kc (by omega)).1, readBuf_ok (hin kc (by omega)).2]
    simp [pure, Except.pure, Finset.sum_range_succ, add_assoc]

theorem dotProd_ok {a b : List ℚ} {i j n kdim : Nat}
    (ha : ∀ p, p < kdim → i * kdim + p < a.length)
    (hb : ∀ p, p < kdim → p * n + j < b.length) :
    dotProd a b i j n kdim = .ok (dotVal a b i j n kdim) := by
  unfold dotProd dotVal
  have := dot_fold_ok a b i j n kdim kdim (fun p hp => ⟨ha p hp, hb p hp⟩) 0
  simpa using this

theorem getD_set_self {l : List ℚ} {i : Nat} {a : ℚ} (h : i < l.length) :
    (l.set i a).getD i 0 = a := by
  rw [List.getD_eq_getElem?_getD, List.getElem?_set_self', List.getElem?_eq_getElem h]
  rfl

theorem getD_set_of_ne {l : List ℚ} {i j : Nat} {a : ℚ} (h : i ≠ j) :
    (l.set i a).getD j 0 = l.getD j 0 := by
  rw [List.getD_eq_getElem?_getD, List.getElem?_set_ne h, List.getD_eq_getElem?_getD]

theorem row_fold_ok (a b : List ℚ) (m n kdim i : Nat) (hi : i < m)
    (ha : ∀ p, p < kdim → i * kdim + p < a.length)
    (hb : ∀ j, j < n → ∀ p, p < kdim → p * n + j < b.length) :
    ∀ (jc : Nat), jc ≤ n → ∀ (row : List ℚ), row.length = m * n →
      ∃ row2, (List.range jc).foldlM (matmulInner a b n kdim i) row = .ok row2 ∧
        row2.length = m * n ∧
        (∀ q, row2.getD q 0 =
          if i * n ≤ q ∧ q < i * n + jc then dotVal a b i (q - i * n) n kdim
          else row.getD q 0) := by
  intro jc
  induction jc with
  | zero =>
    intro _ row hrow
    refine ⟨row, ?_, hrow, ?_⟩
    · rw [List.range_zero, List.foldlM_nil]
      rfl
    · intro q
      rw [if_neg (by omega)]
  | succ jc ih =>
    intro hjc row hrow
    obtain ⟨row2, hfold, hlen, hchar⟩ := ih (by omega) row hrow
    have hrange : i * n + jc < m * n := by
      have h1 : (i + 1) * n ≤ m * n := Nat.mul_le_mul_right n (Nat.succ_le_of_lt hi)
      have h2 : (i + 1) * n = i * n + n := by ring
      omega
    refine ⟨row2.set (i * n + jc) (dotVal a b i jc n kdim), ?_, ?_, ?_⟩
    · rw [List.range_succ, List.foldlM_append, hfold]
      simp only [bind, Except.bind, List.foldlM_cons, List.foldlM_nil, matmulInner]
      rw [dotProd_ok ha (hb jc (by omega))]
      rfl
    · rw [List.length_set, hlen]
    · intro q
      by_cases hq : q = i * n + jc
      · subst hq
        rw [getD_set_self (by rw [hlen]; exact hrange), if_pos (by omega)]
        congr 1
        omega
      · rw [getD_set_of_ne (fun hc => hq hc.symm), hchar q]
        by_cases hq2 : i * n ≤ q ∧ q < i * n + jc
        · rw [if_pos hq2, if_pos (by omega)]
        · rw [if_neg hq2, if_neg (by omega)]

theorem matmul_fold_ok (a b : List ℚ) (m n kdim : Nat)
    (ha : ∀ i, i < m → ∀ p, p < kdim → i * kdim + p < a.length)
    (hb : ∀ j, j < n → ∀ p, p < kdim → p * n + j < b.length) :
    ∀ (ic : Nat), ic ≤ m → ∀ (out : List ℚ), out.length = m * n →
      ∃ out2, (List.range ic).foldlM
          (fun out i => (List.range n).foldlM (matmulInner a b n kdim i) out)
          out = .ok out2 ∧
        out2.length = m * n ∧
        (∀ q, out2.getD q 0 =
          if q < ic * n then dotVal a b (q / n) (q % n) n kdim
          else out.getD q 0) := by
  intro ic
  induction ic with
  | zero =>
    intro _ out hout
    refine ⟨out, ?_, hout, ?_⟩
    · rw [List.range_zero, List.foldlM_nil]
      rfl
    · intro q
      rw [if_neg (by omega)]
  | succ ic ih =>
    intro hic out hout
    obtain ⟨out2, hfold, hlen, hchar⟩ := ih (by omega) out hout
    obtain ⟨out3, hfold3, hlen3, hchar3⟩ :=
      row_fold_ok a b m n kdim ic (by omega) (ha ic (by omega)) hb n le_rfl out2 hlen
    refine ⟨out3, ?_, hlen3, ?_⟩
    · rw [List.range_succ, List.foldlM_append, hfold]
      simp only [bind, Except.bind, List.foldlM_cons, List.foldlM_nil]
      rw [hfold3]
      rfl
    · intro q
      have hmul : (ic + 1) * n = ic * n + n := by ring
      rw [hchar3 q]
      by_cases hq : ic * n ≤ q ∧ q < ic * n + n
      · rw [if_pos hq, if_pos (by omega)]
        have hn : 0 < n := by omega
        have hqe : q = (q - ic * n) + n * ic := by
          have := Nat.mul_comm n ic
          omega
        have hdiv : q / n = ic := by
          rw [hqe, Nat.add_mul_div_left _ _ hn, Nat.div_eq_of_lt (by omega),
            Nat.zero_add]
        have hmod : q % n = q - ic * n := by
          have hcm := Nat.mul_comm n ic
          rw [hqe, Nat.add_mul_mod_self_left, Nat.mod_eq_of_lt (by omega)]
          omega
        rw [hdiv, hmod]
      · rw [if_neg hq, hchar q]
        by_cases hq2 : q < ic * n
        · rw [if_pos hq2, if_pos (by omega)]
        · rw [if_neg hq2, if_neg (by omega)]

theorem matmulLoop_ok {a b : List ℚ} {m n kdim : Nat}
    (ha : ∀ i, i < m → ∀ p, p < kdim → i * kdim + p < a.length)
    (hb : ∀ j, j < n → ∀ p, p < kdim → p * n + j < b.length) :
    ∃ out, matmulLoop a b m n kdim = .ok out ∧ out.length = m * n ∧
      ∀ i, i < m → ∀ j, j < n → out.getD (i * n + j) 0 = dotVal a b i j n kdim := by
  obtain ⟨out2, hfold, hlen, hchar⟩ :=
    matmul_fold_ok a b m n kdim ha hb m le_rfl (mkBuffer (m * n)) (by
      simp [mkBuffer])
  refine ⟨out2, hfold, hlen, ?_⟩
  intro i hi j hj
  have hn : 0 < n := by omega
  have hrange : i * n + j < m * n := by
    have h1 : (i + 1) * n ≤ m * n := Nat.mul_le_mul_right n (Nat.succ_le_of_lt hi)
    have h2 : (i + 1) * n = i * n + n := by ring
    omega
  rw [hchar (i * n + j), if_pos hrange]
  have hqe : i * n + j = j + n * i := by ring
  have hdiv : (i * n + j) / n = i := by
    rw [hqe, Nat.add_mul_div_left _ _ hn, Nat.div_eq_of_lt hj, Nat.zero_add]
  have hmod : (i * n + j) % n = j := by
    rw [hqe, Nat.add_mul_mod_self_left, Nat.mod_eq_of_lt hj]
  rw [hdiv, hmod]

/-- C3 (amended): when the CPU backend evaluates a MatMul node it computes
the non-batched 2-D contraction out[i,j] = Sum over p of L[i,p]*R[p,j] (no
alpha/beta accumulation, no batch dimension), and a shape mismatch is
caught before the contraction runs by the assertion that MatMul's output
shape has exactly two dimensions. -/
theorem matmul_eval (g : List Node) (idx : Nat) (node : Node)
    (l r kdim : Nat) (res : List (Option (List ℚ))) (lb rb : List ℚ)
    (hg : g.get? idx = some node) (hop : node.op = .matMul l r kdim)
    (hl : getBuf res l = .ok lb) (hr : getBuf res r = .ok rb) :
    (node.shape.length ≠ 2 → evalStep g res idx = .error .matmulAssert) ∧
    (∀ m n, node.shape = [m, n] →
      (∀ i, i < m → ∀ p, p < kdim → i * kdim + p < lb.length) →
      (∀ j, j < n → ∀ p, p < kdim → p * n + j < rb.length) →
      ∃ out, evalStep g res idx = .ok (res.set idx (some out)) ∧
        out.length = m * n ∧
        ∀ i, i < m → ∀ j, j < n →
          out.getD (i * n + j) 0 =
            ∑ p ∈ Finset.range kdim,
              lb.getD (i * kdim + p) 0 * rb.getD (p * n + j) 0) := by
  constructor
  · intro hsh
    unfold evalStep
    rw [hg]
    simp only [hop, evalNode, hl, hr]
    rw [if_neg hsh]
  · intro m n hsh hla hlb
    obtain ⟨out, hok, hlen2, hchar⟩ := matmulLoop_ok hla hlb
    refine ⟨out, ?_, hlen2, ?_⟩
    · unfold evalStep
      rw [hg]
      simp only [hop, evalNode, hl, hr, hsh]
      rw [if_pos (by simp)]
      simp only [List.getD_cons_zero, List.getD_cons_succ]
      rw [hok]
    · intro i hi j hj
      have := hchar i hi j hj
      rw [this]
      rfl

/-- Witness for C3 at a concrete 1 x 1 by 1 x 1 product read from a concrete
results table. -/
theorem matmul_eval_witness :
    ∃ out, evalStep [⟨.matMul 0 1 1, [1, 1]⟩] [some [2], some [3]] 0 =
        .ok (([some [2], some [3]] : List (Option (List ℚ))).set 0 (some out)) ∧
      out.length = 1 * 1 ∧
      ∀ i, i < 1 → ∀ j, j < 1 →
        out.getD (i * 1 + j) 0 =
          ∑ p ∈ Finset.range 1,
            ([2] : List ℚ).getD (i * 1 + p) 0 * ([3] : List ℚ).getD (p * 1 + j) 0 :=
  (matmul_eval [⟨.matMul 0 1 1, [1, 1]⟩] 0 ⟨.matMul 0 1 1, [1, 1]⟩ 0 1 1
    [some [2], some [3]] [2] [3] rfl rfl rfl rfl).2 1 1 rfl
    (by decide) (by decide)

/-- Counterexample to C3 as stated: the MatMul arm asserts a 2-D output
shape, so a 3-D (batched) output shape is rejected, and the accepted 2-D
case computes the plain product (the Op carries no alpha, beta or batch
data at all). -/
theorem matmul_3d_counterexample :
    runGraph [⟨.fill 1, [1, 2]⟩, ⟨.fill 1, [2, 1]⟩, ⟨.matMul 0 1 2, [1, 1, 1]⟩] =
      .error .matmulAssert ∧
    runGraph [⟨.fill 2, [1, 1]⟩, ⟨.fill 3, [1, 1]⟩, ⟨.matMul 0 1 1, [1, 1]⟩] =
      .ok [6] := by
  constructor
  · rfl
  · have h : runGraph [⟨.fill 2, [1, 1]⟩, ⟨.fill 3, [1, 1]⟩, ⟨.matMul 0 1 1, [1, 1]⟩]
        = .ok [0 + 2 * 3] := rfl
    rw [h]
    norm_num

theorem arangeLoop_spec (stop step : ℚ) (hstep : 0 < step) :
    ∀ (N : Nat) (x : ℚ), (⌈(stop - x) / step⌉).toNat ≤ N →
      ∃ nsteps : Nat,
        arangeLoop stop step x =
          some ((List.range nsteps).map (fun i : Nat => x + (i : ℚ) * step)) ∧
        (∀ i : Nat, i < nsteps → x + i * step < stop) ∧
        ¬ (x + nsteps * step < stop) := by
  intro N
  induction N with
  | zero =>
    intro x hN
    have hx : ¬ x < stop := by
      intro hx
      have hq : 0 < (stop - x) / step := div_pos (by linarith) hstep
      have := Int.ceil_pos.mpr hq
      omega
    refine ⟨0, ?_, by omega, by simpa using hx⟩
    rw [arangeLoop, dif_neg hx]
    simp
  | succ N ih =>
    intro x hN
    by_cases hx : x < stop
    · have hq : 0 < ⌈(stop - x) / step⌉ :=
        Int.ceil_pos.mpr (div_pos (by linarith) hstep)
      have hmeas : (⌈(stop - (x + step)) / step⌉).toNat ≤ N := by
        have hceil : ⌈(stop - (x + step)) / step⌉ = ⌈(stop - x) / step⌉ - 1 := by
          rw [show stop - (x + step) = stop - x - step by ring, sub_div,
            div_self (ne_of_gt hstep)]
          exact Int.ceil_sub_one _
        rw [hceil]
        omega
      obtain ⟨nsteps, heq, hlt, hge⟩ := ih (x + step) hmeas
      refine ⟨nsteps + 1, ?_, ?_, ?_⟩
      · rw [arangeLoop, dif_pos hx, dif_pos hstep, heq]
        simp only [Option.map]
        refine congrArg some ?_
        rw [List.range_succ_eq_map, List.map_cons, List.map_map]
        congr 1
        · simp
        · refine List.map_congr_left ?_
          intro i _
          simp only [Function.comp_apply]
          push_cast
          ring
      · intro i hi
        cases i with
        | zero => simpa using hx
        | succ i2 =>
          have h2 := hlt i2 (by omega)
          push_cast at h2 ⊢
          linarith
      · intro hc
        apply hge
        push_cast at hc ⊢
        linarith
    · refine ⟨0, ?_, by omega, by simpa using hx⟩
      rw [arangeLoop, dif_neg hx]
      simp

/-- C5: evaluating an Arange node produces exactly the arithmetic sequence
start, start+step, ... of every value generated while x < stop; the length
is determined by that loop condition, and the declared shape plays no role
in the produced buffer (last conjunct).  The positive-step hypothesis is
the condition under which the Rust while-loop terminates at all. -/
theorem arange_eval (g : List Node) (idx : Nat) (node : Node)
    (start step stop : ℚ) (res : List (Option (List ℚ)))
    (hg : g.get? idx = some node) (hop : node.op = .arange start step stop)
    (hstep : 0 < step) :
    ∃ nsteps : Nat, ∃ buf : List ℚ,
      evalStep g res idx = .ok (res.set idx (some buf)) ∧
      buf = (List.range nsteps).map (fun i : Nat => start + (i : ℚ) * step) ∧
      buf.length = nsteps ∧
      (∀ i : Nat, i < nsteps → start + i * step < stop) ∧
      ¬ (start + nsteps * step < stop) ∧
      (∀ shape2 : List Nat,
        evalNode node.op shape2 res idx = .ok (res.set idx (some buf))) := by
  obtain ⟨nsteps, heq, hlt, hge⟩ :=
    arangeLoop_spec stop step hstep (⌈(stop - start) / step⌉).toNat start le_rfl
  refine ⟨nsteps, (List.range nsteps).map (fun i : Nat => start + (i : ℚ) * step),
    ?_, rfl, by simp, hlt, hge, ?_⟩
  · unfold evalStep
    rw [hg]
    simp only [hop, evalNode, heq]
  · intro shape2
    simp only [hop, evalNode, heq]

/-- Witness for C5 at arange(start 0, step 1, stop 2) in a one-node graph. -/
theorem arange_eval_witness :
    ∃ nsteps : Nat, ∃ buf : List ℚ,
      evalStep [⟨.arange 0 1 2, [2]⟩] [none] 0 =
        .ok (([none] : List (Option (List ℚ))).set 0 (some buf)) ∧
      buf = (List.range nsteps).map (fun i : Nat => (0 : ℚ) + (i : ℚ) * 1) ∧
      buf.length = nsteps ∧
      (∀ i : Nat, i < nsteps → (0 : ℚ) + i * 1 < 2) ∧
      ¬ ((0 : ℚ) + nsteps * 1 < 2) ∧
      (∀ shape2 : List Nat,
        evalNode (Node.mk (.arange 0 1 2) [2]).op shape2 [none] 0 =
          .ok (([none] : List (Option (List ℚ))).set 0 (some buf))) :=
  arange_eval [⟨.arange 0 1 2, [2]⟩] 0 ⟨.arange 0 1 2, [2]⟩ 0 1 2 [none]
    rfl rfl (by norm_num)

/-- Counterexample to C10 as stated: the in-place node with out = l = r
satisfies the claim's hypothesis (out equals an operand id), the unreachable
branch is indeed not reached, but no result is produced by take-and-mutate:
taking the l buffer clears the entry the r read then unwraps, so the run
dies with the missing-operand panic. -/
theorem inplace_alias_collision_counterexample :
    (∀ n ∈ ([⟨.fill 1, [1]⟩, ⟨.inplaceBinaryOp 0 0 0 .add, [1]⟩] : List Node),
      inplaceOk n.op) ∧
    runGraph [⟨.fill 1, [1]⟩, ⟨.inplaceBinaryOp 0 0 0 .add, [1]⟩] =
      .error .missingOperand := by
  constructor
  · intro n hn
    rcases List.mem_cons.mp hn with rfl | hn2
    · simp [inplaceOk]
    · rcases List.mem_cons.mp hn2 with rfl | hn3
      · simp [inplaceOk]
      · simp at hn3
  · rfl

end Cpu

/-! ## GEMM dispatch (dtype/gemm.rs).

launch_gemm computes batched out = alpha*out + beta*(lhs @ rhs) per the
NAIVE reference arm of the instantiation macro; the integer types u8, u32,
i32 and i64 are instantiated with the SIMD arm instead.  Scalars are
modelled by Int (exact for the in-range values used below; the Rust integer
types wrap on overflow, which no instantiated input here approaches).
Buffer reads are modelled with getD; every read in the uses below is in
bounds, where Rust would panic otherwise.  The SimdSupported elementwise
helpers are absent from the sources; per the spec they are elementwise:
binary_simd_op_inplace_lhs(out, arr, Mul) is out[t] *= arr[t] and
fma_op_inplace_c(a, b, c) is c[t] = a[t]*b[t] + c[t]. -/

namespace Gemm

/-- In-bounds buffer read (Rust slice indexing). -/
def gemmRead (l : List Int) (i : Nat) : Int := l.getD i 0

/-- The NAIVE arm of instantiate_gemm: triple loop with
sum += beta * lhs[b*m*k + i*k + p] * rhs[b*k*n + p*n + j] and
out[b*m*n + i*n + j] = alpha * out[b*m*n + i*n + j] + sum. -/
def launchGemmNaive (lhs rhs : List Int) (bb m n k : Nat)
    (alpha beta : Int) (out : List Int) : List Int :=
  (List.range bb).foldl
    (fun out b =>
      (List.range m).foldl
        (fun out i =>
          (List.range n).foldl
            (fun out j =>
              let sum := (List.range k).foldl
                (fun s p =>
                  s + beta * gemmRead lhs (b * m * k + i * k + p) *
                    gemmRead rhs (b * k * n + p * n + j)) 0
              out.set (b * m * n + i * n + j)
                (alpha * gemmRead out (b * m * n + i * n + j) + sum))
            out)
        out)
    out

/-- Apply an elementwise update to out[base+t] for t < cnt (the modelled
SIMD chunk operations, which act lane-wise). -/
def simdChunkOp (out : List Int) (base cnt : Nat) (f : Nat → Int → Int) :
    List Int :=
  (List.range cnt).foldl
    (fun o t => o.set (base + t) (f t (gemmRead o (base + t)))) out

/-- The SIMD arm of instantiate_gemm: per batch and row, full lanes then the
remainder; the existing output is scaled by alpha under a test of beta (the
source checks beta against the zero constant while its comment says scale by
alpha), and the accumulation adds plain lhs*rhs products with no beta
factor. -/
def launchGemmSimd (blockSize : Nat) (lhs rhs : List Int) (bb m n k : Nat)
    (alpha beta : Int) (out : List Int) : List Int :=
  (List.range bb).foldl
    (fun out batch =>
      (List.range m).foldl
        (fun out i =>
          let rowBase := batch * m * n + i * n
          let out2 := (List.range (n / blockSize)).foldl
            (fun o block =>
              let off := block * blockSize
              let o1 := if beta ≠ 0
                then simdChunkOp o (rowBase + off) blockSize (fun _ x => x * alpha)
                else simdChunkOp o (rowBase + off) blockSize (fun _ _ => 0)
              (List.range k).foldl
                (fun o p =>
                  let aval := gemmRead lhs (batch * m * k + i * k + p)
                  simdChunkOp o (rowBase + off) blockSize
                    (fun t x => aval * gemmRead rhs (batch * k * n + p * n + off + t) + x))
                o1)
            out
          let off := (n / blockSize) * blockSize
          let rem := n % blockSize
          let o1 := if beta ≠ 0
            then simdChunkOp out2 (rowBase + off) rem (fun _ x => x * alpha)
            else simdChunkOp out2 (rowBase + off) rem (fun _ _ => 0)
          (List.range k).foldl
            (fun o p =>
              let aval := gemmRead lhs (batch * m * k + i * k + p)
              simdChunkOp o (rowBase + off) rem
                (fun t x => x + aval * gemmRead rhs (batch * k * n + p * n + off + t)))
            o1)
        out)
    out

/-- C4 is refuted by the code: at b=m=n=k=1, lhs=[1], rhs=[1], out=[3],
alpha=0, beta=2, the claimed semantics (the NAIVE reference in the same
file) give out=[2] = alpha*prev + beta*sum, but the SIMD arm used for the
integer instantiations leaves out=[1]: it gates the alpha scaling on
beta != 0 and drops the beta factor from the accumulated products.  With
alpha=1, beta=0 the claim demands out=[3] (prev read back since alpha is
nonzero), but the SIMD arm zero-initializes and yields [1]. -/
theorem gemm_simd_beta_bug :
    launchGemmSimd 8 [1] [1] 1 1 1 1 0 2 [3] = [1] ∧
    launchGemmNaive [1] [1] 1 1 1 1 0 2 [3] = [2] ∧
    launchGemmSimd 8 [1] [1] 1 1 1 1 1 0 [3] = [1] ∧
    launchGemmNaive [1] [1] 1 1 1 1 1 0 [3] = [3] := by decide

end Gemm

/-! ## CUDA JIT backend (cuda_backend/mod.rs).

compile toposorts by list position, splits the order into runs keyed by
output shape, renders the final node of each run by recursive inlining
(handle_node), and JIT-compiles one kernel per run.  Op payloads that only
feed the rendered text are modelled as the strings they render to (the
Debug formatting of fill/arange constants, BinaryOpType as_c_op); the
UnaryOpType fill_in_c_op template is absent from the sources and modelled
from the spec as an opaque String transformer. -/

namespace Cuda

/-- Op of the CUDA snapshot (exactly the seven variants its matches cover). -/
inductive COp where
  | binaryOp (l r : Nat) (op : String) : COp
  | unaryOp (v : Nat) (render : String → String) : COp
  | fill (v : String) : COp
  | arange (start step stop : String) : COp
  | fusedMulAdd (a b c : Nat) : COp
  | matMul (l r : Nat) : COp
  | noOp : COp

/-- GraphNode with its output shape. -/
structure CNode where
  op : COp
  shape : List Nat

/-- Panic branches of handle_node plus the fuel artifact of the model. -/
inductive RenderErr where
  | noOpReached : RenderErr
  | matmulReached : RenderErr
  | badIndex : RenderErr
  | fuelOut : RenderErr
deriving DecidableEq

/-- handle_node: render the scalar expression for a node by inlining its
operands; state is (current_name counter, header text); fuel bounds the
recursion depth (the Rust recursion terminates on the well-formed graphs
the front end produces; fuel larger than the graph depth is enough). -/
def renderNode (g : List CNode) :
    Nat → Nat → Nat → String → Except RenderErr (String × Nat × String)
  | 0, _, _, _ => .error .fuelOut
  | fuel + 1, idx, currentName, header =>
    match g.get? idx with
    | none => .error .badIndex
    | some node =>
      match node.op with
      | .binaryOp l r op => do
        let (ln, c1, h1) ← renderNode g fuel l currentName header
        let (rn, c2, h2) ← renderNode g fuel r c1 h1
        .ok ("(" ++ ln ++ " " ++ op ++ " " ++ rn ++ ")", c2, h2)
      | .unaryOp v render => do
        let (vn, c1, h1) ← renderNode g fuel v currentName header
        .ok (render vn, c1, h1)
      | .fill v =>
        let c1 := currentName + 1
        let name := "v" ++ toString c1
        .ok ("(" ++ name ++ ")", c1,
          header ++ "T " ++ name ++ " = " ++ v ++ ";
")
      | .arange start step _ =>
        let c1 := currentName + 1
        let name := "v" ++ toString c1
        .ok ("(" ++ name ++ ")", c1,
          header ++ "T " ++ name ++ " = static_cast<T>(i) * static_cast<T>(" ++
            step ++ ") + static_cast<T>(" ++ start ++ ");
")
      | .fusedMulAdd a b c => do
        let (an, c1, h1) ← renderNode g fuel a currentName header
        let (bn, c2, h2) ← renderNode g fuel b c1 h1
        let (cn, c3, h3) ← renderNode g fuel c c2 h2
        .ok ("( static_cast<T>(fma(static_cast<double>(" ++ an ++
          "), static_cast<double>(" ++ bn ++ "), static_cast<double>(" ++
          cn ++ "))))", c3, h3)
      | .noOp => .error .noOpReached
      | .matMul _ _ => .error .matmulReached

/-- Output shape of graph[idx] (in-bounds in every use: the order comes
from a toposort of the node positions). -/
def shapeAt (g : List CNode) (idx : Nat) : List Nat :=
  (g.getD idx ⟨.noOp, []⟩).shape

/-- One iteration of the splitting loop of compile: push idx into the last
group when graph[idx] has the same shape as that group's last node, else
start a new group keyed by the shape. -/
def splitStep (g : List CNode) (acc : List (List Nat × List Nat))
    (idx : Nat) : List (List Nat × List Nat) :=
  let shapeKey := shapeAt g idx
  match acc.getLast? with
  | some (lastGroup, key) =>
    let lastIdx := lastGroup.getLast?.getD 0
    if shapeAt g lastIdx = shapeKey then
      acc.dropLast ++ [(lastGroup ++ [idx], key)]
    else
      acc ++ [([idx], shapeKey)]
  | none => acc ++ [([idx], shapeKey)]

/-- The splitting loop of compile over a topological order. -/
def cudaSplits (g : List CNode) (order : List Nat) :
    List (List Nat × List Nat) :=
  order.foldl (splitStep g) []

/-- Operand ids contributing dependency edges in compile. -/
def COp.operandsCuda : COp → List Nat
  | .binaryOp l r _ => [l, r]
  | .unaryOp v _ => [v]
  | .fusedMulAdd a b c => [a, b, c]
  | .matMul l r => [l, r]
  | .noOp => []
  | .fill _ => []
  | .arange _ _ _ => []

/-- Dependency edges: operand id to consumer position. -/
def cudaEdges (g : List CNode) : List (Nat × Nat) :=
  g.enum.flatMap fun p => (COp.operandsCuda p.2.op).map (fun q => (q, p.1))

/-- Vertex insertion order of compile's DiGraphMap. -/
def cudaVerts (g : List CNode) : List Nat :=
  (cudaEdges g).foldl addEdgeVerts (List.range g.length)

/-- The topological order compile feeds into the splitting loop. -/
def cudaOrder (g : List CNode) : Option (List Nat) :=
  kahn (cudaEdges g) (cudaVerts g)

/-- Invariant of the splitting loop: every group is nonempty and constant
in shape equal to its key, and adjacent groups carry different keys. -/
def SplitsInv (g : List CNode) (acc : List (List Nat × List Nat)) : Prop :=
  (∀ gr ∈ acc, gr.1 ≠ [] ∧ ∀ i ∈ gr.1, shapeAt g i = gr.2) ∧
  List.Chain' Ne (acc.map Prod.snd)

theorem splitStep_inv {g : List CNode} {acc : List (List Nat × List Nat)}
    (idx : Nat) (h : SplitsInv g acc) :
    SplitsInv g (splitStep g acc idx) ∧
    (splitStep g acc idx).flatMap Prod.fst = acc.flatMap Prod.fst ++ [idx] := by
  obtain ⟨hgr, hch⟩ := h
  cases hlast : acc.getLast? with
  | none =>
    have hred : splitStep g acc idx = acc ++ [([idx], shapeAt g idx)] := by
      unfold splitStep
      rw [hlast]
    have hnil : acc = [] := List.getLast?_eq_none_iff.mp hlast
    subst hnil
    rw [hred]
    refine ⟨⟨?_, ?_⟩, ?_⟩
    · intro gr hgr2
      simp only [List.nil_append, List.mem_singleton] at hgr2
      subst hgr2
      refine ⟨by simp, ?_⟩
      intro i hi
      simp only [List.mem_singleton] at hi
      subst hi
      rfl
    · simp
    · simp
  | some last =>
    obtain ⟨lg, key⟩ := last
    have hne : acc ≠ [] := by
      intro hc
      subst hc
      simp at hlast
    have hgl : acc.getLast hne = (lg, key) := by
      have h2 := List.getLast?_eq_getLast acc hne
      rw [hlast] at h2
      injection h2 with h2
      exact h2.symm
    have hacc : acc.dropLast ++ [(lg, key)] = acc := by
      rw [← hgl]
      exact List.dropLast_append_getLast hne
    have hmem : (lg, key) ∈ acc := by
      rw [← hacc]
      simp
    have hlgprops := hgr (lg, key) hmem
    have hlgne : lg ≠ [] := hlgprops.1
    have hlastIdx : lg.getLast?.getD 0 ∈ lg := by
      cases hlg2 : lg.getLast? with
      | none => exact absurd (List.getLast?_eq_none_iff.mp hlg2) hlgne
      | some x =>
        simp only [Option.getD_some]
        have h3 := List.getLast?_eq_getLast lg hlgne
        rw [hlg2] at h3
        injection h3 with h3
        rw [h3]
        exact List.getLast_mem hlgne
    have hlastShape : shapeAt g (lg.getLast?.getD 0) = key :=
      hlgprops.2 _ hlastIdx
    by_cases hsh : shapeAt g (lg.getLast?.getD 0) = shapeAt g idx
    · have hred : splitStep g acc idx = acc.dropLast ++ [(lg ++ [idx], key)] := by
        unfold splitStep
        rw [hlast]
        dsimp only
        rw [if_pos hsh]
      rw [hred]
      refine ⟨⟨?_, ?_⟩, ?_⟩
      · intro gr hgr2
        rcases List.mem_append.mp hgr2 with hin | hin
        · exact hgr gr ((List.dropLast_sublist acc).subset hin)
        · simp only [List.mem_singleton] at hin
          subst hin
          refine ⟨by simp, ?_⟩
          intro i hi
          rcases List.mem_append.mp hi with hin2 | hin2
          · exact hlgprops.2 i hin2
          · simp only [List.mem_singleton] at hin2
            subst hin2
            rw [← hsh, hlastShape]
      · have hmap : (acc.dropLast ++ [(lg ++ [idx], key)]).map Prod.snd =
            acc.map Prod.snd := by
          conv_rhs => rw [← hacc]
          simp
        rw [hmap]
        exact hch
      · conv_rhs => rw [← hacc]
        simp
    · have hred : splitStep g acc idx = acc ++ [([idx], shapeAt g idx)] := by
        unfold splitStep
        rw [hlast]
        dsimp only
        rw [if_neg hsh]
      rw [hred]
      refine ⟨⟨?_, ?_⟩, ?_⟩
      · intro gr hgr2
        rcases List.mem_append.mp hgr2 with hin | hin
        · exact hgr gr hin
        · simp only [List.mem_singleton] at hin
          subst hin
          refine ⟨by simp, ?_⟩
          intro i hi
          simp only [List.mem_singleton] at hi
          subst hi
          rfl
      · rw [List.map_append, List.chain'_append]
        refine ⟨hch, by simp, ?_⟩
        intro x hx y hy
        simp only [List.map_cons, List.map_nil, List.head?_cons,
          Option.mem_def, Option.some.injEq] at hy
        subst hy
        have hxlast : x = key := by
          have h1 : (acc.map Prod.snd).getLast? = some key := by
            conv_lhs => rw [← hacc]
            simp
          rw [h1] at hx
          simp only [Option.mem_def, Option.some.injEq] at hx
          exact hx.symm
        subst hxlast
        rw [← hlastShape]
        exact hsh
      · simp

theorem cudaSplits_foldl (g : List CNode) :
    ∀ (order : List Nat) (acc : List (List Nat × List Nat)),
      SplitsInv g acc →
      SplitsInv g (order.foldl (splitStep g) acc) ∧
      (order.foldl (splitStep g) acc).flatMap Prod.fst =
        acc.flatMap Prod.fst ++ order := by
  intro order
  induction order with
  | nil => intro acc h; exact ⟨h, by simp⟩
  | cons x xs ih =>
    intro acc h
    obtain ⟨h1, h2⟩ := splitStep_inv x h
    obtain ⟨h3, h4⟩ := ih (splitStep g acc x) h1
    refine ⟨by simpa using h3, ?_⟩
    simp only [List.foldl_cons] at h4 ⊢
    rw [h4, h2]
    simp

/-- C6 (amended): the splitting loop partitions the topological order into
maximal runs of adjacent nodes of identical output shape; the op kind plays
no role, so a MatMul starts a new group only when its shape differs from
its predecessor's; and handle_node refuses a MatMul (its own-split panic)
rather than rendering it into a fused elementwise expression. -/
theorem cuda_grouping (g : List CNode) (order : List Nat) :
    (cudaSplits g order).flatMap Prod.fst = order ∧
    (∀ gr ∈ cudaSplits g order, gr.1 ≠ [] ∧ ∀ i ∈ gr.1, shapeAt g i = gr.2) ∧
    List.Chain' Ne ((cudaSplits g order).map Prod.snd) ∧
    (∀ (fuel idx currentName : Nat) (header : String) (node : CNode)
      (l r : Nat), g.get? idx = some node → node.op = .matMul l r →
      renderNode g (fuel + 1) idx currentName header = .error .matmulReached) := by
  have hinv : SplitsInv g [] := ⟨by simp, by simp⟩
  obtain ⟨⟨hgr, hch⟩, hflat⟩ := cudaSplits_foldl g order [] hinv
  refine ⟨by simpa using hflat, hgr, hch, ?_⟩
  intro fuel idx currentName header node l r hg hop
  simp only [renderNode, hg, hop]

/-- Witness for C6: a fill followed by a same-shape MatMul lands in one
group of two (grouping ignores the op kind), and rendering the MatMul is
the matmul-split panic. -/
theorem cuda_grouping_witness :
    (cudaSplits [⟨.fill "1", [2, 2]⟩, ⟨.matMul 0 0, [2, 2]⟩] [0, 1]).flatMap
        Prod.fst = [0, 1] ∧
    renderNode [⟨.fill "1", [2, 2]⟩, ⟨.matMul 0 0, [2, 2]⟩] 1 1 0 "" =
      .error .matmulReached :=
  ⟨(cuda_grouping [⟨.fill "1", [2, 2]⟩, ⟨.matMul 0 0, [2, 2]⟩] [0, 1]).1,
    (cuda_grouping [⟨.fill "1", [2, 2]⟩, ⟨.matMul 0 0, [2, 2]⟩] [0, 1]).2.2.2
      0 1 0 "" ⟨.matMul 0 0, [2, 2]⟩ 0 0 rfl rfl⟩

/-- Counterexample to C6 as stated: with a fill of shape [2,2] followed by
a MatMul of the same shape, compile's toposort is [0, 1] and the splitting
loop produces the single group ([0, 1], [2,2]): the MatMul does not start a
new group. -/
theorem matmul_not_new_group_counterexample :
    cudaOrder [⟨.fill "1", [2, 2]⟩, ⟨.matMul 0 0, [2, 2]⟩] = some [0, 1] ∧
    cudaSplits [⟨.fill "1", [2, 2]⟩, ⟨.matMul 0 0, [2, 2]⟩] [0, 1] =
      [([0, 1], [2, 2])] ∧
    ([⟨.fill "1", [2, 2]⟩, ⟨.matMul 0 0, [2, 2]⟩] : List CNode).getD 1
        ⟨.noOp, []⟩ =
      ⟨.matMul 0 0, [2, 2]⟩ := by
  refine ⟨rfl, rfl, rfl⟩

end Cuda

/-! ## On-disk kernel cache of the CUDA backend (compile_kernel, lines
257-285 of cuda_backend/mod.rs).

The ptx text is chosen by consulting the cache file at the path derived
from the kernel hash, then written back.  The filesystem is abstracted to
the state of that one file; dirs::home_dir() availability is a flag;
compile_ptx is a parameter whose nvrtc error propagates.  Write failures
(create_dir_all / fs::write) are not modelled and assumed to succeed. -/

namespace Cache

/-- State of the cache file at the kernel's hash path. -/
inductive FileState where
  | absent : FileState
  | unreadable : FileState
  | readable (contents : String) : FileState
deriving DecidableEq

/-- Cache consultation and write-back of compile_kernel: returns the ptx
text used, the cache file state afterwards, and whether compile_ptx was
invoked (the last component is a ghost flag recording the branch taken). -/
def compileKernelCache (homeAvailable : Bool) (file : FileState)
    (compilePtx : Except String String) :
    Except String (String × FileState × Bool) := do
  let r ←
    if homeAvailable then
      match file with
      | .readable s => Except.ok (s, false)
      | .unreadable => do
        let c ← compilePtx
        Except.ok (c, true)
      | .absent => do
        let c ← compilePtx
        Except.ok (c, true)
    else do
      let c ← compilePtx
      Except.ok (c, true)
  if homeAvailable then
    Except.ok (r.1, .readable r.1, r.2)
  else
    Except.ok (r.1, file, r.2)

/-- C7: a present and readable cache file short-circuits compilation (the
result does not depend on the compiler and the ghost flag stays false); an
absent or unreadable file triggers recompilation rather than an error, and
the compiled text is written back to the cache path; only a genuine
compiler failure propagates as an error. -/
theorem cache_short_circuit :
    (∀ (s : String) (compilePtx : Except String String),
      compileKernelCache true (.readable s) compilePtx =
        .ok (s, .readable s, false)) ∧
    (∀ (file : FileState) (c : String), (file = .absent ∨ file = .unreadable) →
      compileKernelCache true file (.ok c) = .ok (c, .readable c, true)) ∧
    (∀ (file : FileState) (e : String), (file = .absent ∨ file = .unreadable) →
      compileKernelCache true file (.error e) = .error e) := by
  refine ⟨fun s compilePtx => rfl, ?_, ?_⟩
  · intro file c hfile
    rcases hfile with rfl | rfl <;> rfl
  · intro file e hfile
    rcases hfile with rfl | rfl <;> rfl

/-- Witness for C7: short-circuit on a warm cache even when the compiler
would fail, and recompile-plus-write-back on a cold cache. -/
theorem cache_short_circuit_witness :
    compileKernelCache true (.readable "CACHED") (.error "nvrtc down") =
      .ok ("CACHED", .readable "CACHED", false) ∧
    compileKernelCache true .absent (.ok "FRESH") =
      .ok ("FRESH", .readable "FRESH", true) :=
  ⟨cache_short_circuit.1 "CACHED" (.error "nvrtc down"),
    cache_short_circuit.2.1 .absent "FRESH" (Or.inl rfl)⟩

end Cache

/-! ## GraphTensor front end (tensor/graphtensor.rs, graph.rs).

Graph keeps an op list and a monotonically increasing id counter
(next_id).  fill and arange take the id before appending; the operator
overloads (add/div/mul/sub), sqrt, neg and matmul append the op referencing
the operand handles first and then take the id.  Either way the returned
handle's id equals the index at which the op landed, and every handle an
operation can consume was returned by an earlier call on the same graph, so
its id is below the current counter.  The Built relation captures exactly
the node lists reachable by such call sequences: the operand hypotheses
(v < n and so on) state that the operand handle was produced earlier. -/

namespace Frontend

/-- Node lists reachable through the GraphTensor front end, indexed by the
id counter.  arange stores step = (stop - start) / A for declared length A
(shape R1 of A); matmul multiplies (a x kdim) by (kdim x c). -/
inductive Built : Nat → List Cpu.Node → Prop where
  | empty : Built 0 []
  | fill (v : ℚ) (shape : List Nat) {n : Nat} {ops : List Cpu.Node} :
      Built n ops → Built (n + 1) (ops ++ [⟨.fill v, shape⟩])
  | arange (start stop : ℚ) (A : Nat) {n : Nat} {ops : List Cpu.Node} :
      Built n ops →
      Built (n + 1) (ops ++ [⟨.arange start ((stop - start) / (A : ℚ)) stop, [A]⟩])
  | unary (v : Nat) (operator : Cpu.UOpT) (shape : List Nat) {n : Nat}
      {ops : List Cpu.Node} : Built n ops → v < n →
      Built (n + 1) (ops ++ [⟨.unaryOp v operator, shape⟩])
  | binop (l r : Nat) (operator : Cpu.BOpT) (shape : List Nat) {n : Nat}
      {ops : List Cpu.Node} : Built n ops → l < n → r < n →
      Built (n + 1) (ops ++ [⟨.binaryOp l r operator, shape⟩])
  | matmul (l r kdim a c : Nat) {n : Nat} {ops : List Cpu.Node} :
      Built n ops → l < n → r < n →
      Built (n + 1) (ops ++ [⟨.matMul l r kdim, [a, c]⟩])

theorem mem_cpuEdges {g : List Cpu.Node} {u v : Nat}
    (h : (u, v) ∈ Cpu.cpuEdges g) :
    ∃ node, g.get? v = some node ∧ u ∈ Cpu.cpuOperands node.op := by
  unfold Cpu.cpuEdges at h
  rw [List.mem_flatMap] at h
  obtain ⟨⟨i, node⟩, hmem, hmap⟩ := h
  rw [List.mem_map] at hmap
  obtain ⟨q, hq, heq⟩ := hmap
  injection heq with h1 h2
  subst h1
  subst h2
  exact ⟨node, (List.mem_enum_iff_get? ).mp hmem, hq⟩

theorem append_operands_lt {ops : List Cpu.Node} {node : Cpu.Node}
    (hops : ∀ i (hi : i < ops.length),
      ∀ p ∈ Cpu.cpuOperands (ops.get ⟨i, hi⟩).op, p < i)
    (hnew : ∀ p ∈ Cpu.cpuOperands node.op, p < ops.length) :
    ∀ i (hi : i < (ops ++ [node]).length),
      ∀ p ∈ Cpu.cpuOperands ((ops ++ [node]).get ⟨i, hi⟩).op, p < i := by
  intro i hi p hp
  by_cases hilt : i < ops.length
  · rw [List.get_append i hilt] at hp
    exact hops i hilt p hp
  · have hieq : i = ops.length := by
      have h2 := hi
      rw [List.length_append, List.length_singleton] at h2
      omega
    subst hieq
    have heq : (ops ++ [node]).get ⟨ops.length, hi⟩ = node := by
      simp [List.get_eq_getElem]
    rw [heq] at hp
    exact hnew p hp

/-- C9: every node list built through the GraphTensor front end has length
equal to the id counter, every node's operand ids are strictly smaller than
the id (= position) of that node, and the operand-reference graph is acyclic
by construction. -/
theorem built_operands_lt (n : Nat) (ops : List Cpu.Node) (h : Built n ops) :
    n = ops.length ∧
    (∀ i (hi : i < ops.length),
      ∀ p ∈ Cpu.cpuOperands (ops.get ⟨i, hi⟩).op, p < i) ∧
    Acyclic (Cpu.cpuEdges ops) := by
  have main : n = ops.length ∧
      ∀ i (hi : i < ops.length),
        ∀ p ∈ Cpu.cpuOperands (ops.get ⟨i, hi⟩).op, p < i := by
    induction h with
    | empty => exact ⟨rfl, by simp⟩
    | fill v shape hb ih =>
      refine ⟨by simp [← ih.1], append_operands_lt ih.2 ?_⟩
      intro p hp
      simp [Cpu.cpuOperands] at hp
    | arange start stop A hb ih =>
      refine ⟨by simp [← ih.1], append_operands_lt ih.2 ?_⟩
      intro p hp
      simp [Cpu.cpuOperands] at hp
    | unary v operator shape hb hv ih =>
      refine ⟨by simp [← ih.1], append_operands_lt ih.2 ?_⟩
      intro p hp
      simp only [Cpu.cpuOperands, List.mem_singleton] at hp
      subst hp
      omega
    | binop l r operator shape hb hl hr ih =>
      refine ⟨by simp [← ih.1], append_operands_lt ih.2 ?_⟩
      intro p hp
      simp only [Cpu.cpuOperands, List.mem_cons, List.mem_singleton,
        List.not_mem_nil, or_false] at hp
      rcases hp with rfl | rfl <;> omega
    | matmul l r kdim a c hb hl hr ih =>
      refine ⟨by simp [← ih.1], append_operands_lt ih.2 ?_⟩
      intro p hp
      simp only [Cpu.cpuOperands, List.mem_cons, List.mem_singleton,
        List.not_mem_nil, or_false] at hp
      rcases hp with rfl | rfl <;> omega
  refine ⟨main.1, main.2, acyclic_of_lt ?_⟩
  intro e he
  obtain ⟨node, hget, hop⟩ := mem_cpuEdges (show (e.1, e.2) ∈ _ from he)
  have hlt : e.2 < ops.length := (List.get?_eq_some.mp hget).1
  have hnode : ops.get ⟨e.2, hlt⟩ = node := by
    have h2 := List.get?_eq_get hlt
    rw [hget] at h2
    injection h2 with h2
    exact h2.symm
  exact main.2 e.2 hlt e.1 (by rw [hnode]; exact hop)

/-- Witness for C9 at a two-call session: fill then an operator overload
consuming the fill handle twice. -/
theorem built_operands_lt_witness :
    2 = ([⟨.fill 1, [2]⟩, ⟨.binaryOp 0 0 .add, [2]⟩] : List Cpu.Node).length ∧
    (∀ i (hi : i < ([⟨.fill 1, [2]⟩, ⟨.binaryOp 0 0 .add, [2]⟩] : List Cpu.Node).length),
      ∀ p ∈ Cpu.cpuOperands
        (([⟨.fill 1, [2]⟩, ⟨.binaryOp 0 0 .add, [2]⟩] : List Cpu.Node).get ⟨i, hi⟩).op,
        p < i) ∧
    Acyclic (Cpu.cpuEdges [⟨.fill 1, [2]⟩, ⟨.binaryOp 0 0 .add, [2]⟩]) :=
  built_operands_lt 2 _
    (Built.binop 0 0 .add [2] (Built.fill 1 [2] Built.empty)
      (by omega) (by omega))

end Frontend

end Constensor

